import Mathlib

/-!
# Verification of the tetre dependency-tree rewriting core

Shallow embedding of `src/lib/tree_utils.py` and
`src/internallib/graph_processing.py`.

Nodes carry the attributes the Python code reads and writes
(`dep_`, `pos_`, `orth_`, `idx`, `n_lefts`, `n_rights`, `head`,
`children`, `nofollow`).  For the pure depth-first search
`find_in_spacynode` a plain inductive rose tree suffices; for the
mutating rules the object graph (children lists plus reassignable
head back-references) is embedded as an arena of nodes addressed by
stable integer ids, exactly the modelling the design notes of the
repository recommend for the parent/child back-references.
-/

namespace Tetre

/-- Python `a.isPrefix-like` helper on character lists: `chStart p l`
is true when `p` is an initial segment of `l`. -/
def chStart : List Char → List Char → Bool
  | [], _ => true
  | _ :: _, [] => false
  | a :: as, b :: bs => a == b && chStart as bs

/-- `chSub p l` is true when `p` occurs contiguously inside `l`. -/
def chSub (p : List Char) : List Char → Bool
  | [] => chStart p []
  | b :: bs => chStart p (b :: bs) || chSub p bs

/-- Python substring containment `pat in hay` on strings. -/
def pyIn (pat hay : String) : Bool :=
  chSub pat.data hay.data

/-! ## The pure search primitive (`src/lib/tree_utils.py`, `find_in_spacynode`)

The search never mutates and never follows head references, so the tree
it walks is embedded as a plain rose tree of (`dep_`, `orth_`, children). -/

inductive STree : Type where
  | mk : String → String → List STree → STree

def STree.dep_ : STree → String
  | .mk d _ _ => d

def STree.orth_ : STree → String
  | .mk _ o _ => o

def STree.children : STree → List STree
  | .mk _ _ cs => cs

/-- The match test of `find_in_spacynode`: three guarded early-return
branches of the source, fused into one expression (the guards are
mutually exclusive by construction). -/
def matchesB (dep orth : String) (d o : String) : Bool :=
  if dep ≠ "" && orth ≠ "" then pyIn dep d && orth == o
  else if orth ≠ "" then orth == o
  else if dep ≠ "" then pyIn dep d
  else false

/-- The source collects the recursive result of every child into a
list and then returns the first truthy entry; this is that second
scan. -/
def firstFound : List (Option STree) → Option STree
  | [] => none
  | some x :: _ => some x
  | none :: rest => firstFound rest

mutual

/-- `find_in_spacynode` from `src/lib/tree_utils.py`: test the node
itself, else map the search over the children (when there are any) and
take the first hit. -/
def find_in_spacynode : STree → String → String → Option STree
  | STree.mk d o cs, dep, orth =>
    if matchesB dep orth d o then some (STree.mk d o cs)
    else if 0 < cs.length then firstFound (resultsFor cs dep orth)
    else none

/-- The `results` list built by the source: one recursive call per
child, in order. -/
def resultsFor : List STree → String → String → List (Option STree)
  | [], _, _ => []
  | c :: rest, dep, orth =>
    find_in_spacynode c dep orth :: resultsFor rest dep orth

end

mutual

/-- Pre-order, left-to-right linearisation of a tree. -/
def preorder : STree → List STree
  | STree.mk d o cs => STree.mk d o cs :: preorderList cs

def preorderList : List STree → List STree
  | [] => []
  | c :: rest => preorder c ++ preorderList rest

end

/-- The match rule as the specification words it: the label filter,
when given, must be a substring of the relation label, and the text
filter, when given, must equal the surface text exactly. -/
def specMatchB (dep orth : String) (m : STree) : Bool :=
  (dep == "" || pyIn dep m.dep_) && (orth == "" || orth == m.orth_)

theorem matchesB_eq_spec (dep orth : String) (m : STree)
    (h : dep ≠ "" ∨ orth ≠ "") :
    matchesB dep orth m.dep_ m.orth_ = specMatchB dep orth m := by
  unfold matchesB specMatchB
  by_cases hd : dep = "" <;> by_cases ho : orth = ""
  · exact absurd h (by simp [hd, ho])
  all_goals
    cases hb : pyIn dep m.dep_ <;> cases hc : (orth == m.orth_) <;>
      simp [hd, ho, hb, hc, beq_iff_eq]

theorem find?_same {α : Type} {p q : α → Bool} :
    ∀ l : List α, (∀ a ∈ l, p a = q a) → l.find? p = l.find? q := by
  intro l
  induction l with
  | nil => intro _; rfl
  | cons a rest ih =>
    intro h
    have ha := h a (by simp)
    cases hp : p a with
    | true =>
      rw [List.find?_cons_of_pos _ hp, List.find?_cons_of_pos _ (ha ▸ hp)]
    | false =>
      rw [List.find?_cons_of_neg _ (by simp [hp]),
        List.find?_cons_of_neg _ (by simp [← ha, hp])]
      exact ih (fun x hx => h x (by simp [hx]))

theorem firstFound_resultsFor (dep orth : String)
    (cs : List STree)
    (ih : ∀ c ∈ cs, find_in_spacynode c dep orth =
      (preorder c).find? (fun m => matchesB dep orth m.dep_ m.orth_)) :
    firstFound (resultsFor cs dep orth) =
      (preorderList cs).find? (fun m => matchesB dep orth m.dep_ m.orth_) := by
  induction cs with
  | nil => simp [resultsFor, firstFound, preorderList]
  | cons c rest ihl =>
    have hc := ih c (by simp)
    have hrest := ihl (fun x hx => ih x (by simp [hx]))
    rw [resultsFor, preorderList, List.find?_append, ← hc, ← hrest]
    cases h : find_in_spacynode c dep orth with
    | none => simp [firstFound, h]
    | some x => simp [firstFound, h]

theorem sizeOf_lt_of_mem_children {c : STree} {cs : List STree}
    (h : c ∈ cs) (d o : String) :
    sizeOf c < sizeOf (STree.mk d o cs) := by
  have h1 : sizeOf c < sizeOf cs := List.sizeOf_lt_of_mem h
  have h2 : sizeOf (STree.mk d o cs) = 1 + sizeOf d + sizeOf o + sizeOf cs := by
    simp
  omega

theorem find_eq_preorder_find? (dep orth : String) :
    ∀ n : STree, find_in_spacynode n dep orth =
      (preorder n).find? (fun m => matchesB dep orth m.dep_ m.orth_) := by
  have main : ∀ k, ∀ n : STree, sizeOf n ≤ k →
      find_in_spacynode n dep orth =
        (preorder n).find? (fun m => matchesB dep orth m.dep_ m.orth_) := by
    intro k
    induction k with
    | zero =>
      intro n hn
      cases n with
      | mk d o cs =>
        have : 0 < sizeOf (STree.mk d o cs) := by
          have : sizeOf (STree.mk d o cs) = 1 + sizeOf d + sizeOf o + sizeOf cs := by
            simp
          omega
        omega
    | succ k ih =>
      intro n hn
      cases n with
      | mk d o cs =>
        rw [find_in_spacynode, preorder]
        by_cases hm : matchesB dep orth d o
        · rw [List.find?_cons_of_pos]
          · simp [hm]
          · simpa [STree.dep_, STree.orth_] using hm
        · rw [List.find?_cons_of_neg]
          · cases cs with
            | nil => simp [hm, preorderList]
            | cons c rest =>
              have hlen : 0 < (c :: rest).length := by simp
              simp only [hm, if_false, hlen, if_true]
              exact firstFound_resultsFor dep orth (c :: rest)
                (fun x hx => by
                  have hx1 := sizeOf_lt_of_mem_children hx d o
                  exact ih x (by omega))
          · simpa [STree.dep_, STree.orth_] using hm
  intro n
  exact main (sizeOf n) n (Nat.le_refl _)

/-- C3: `findFirst` tests the start node before its children, fully
explores each child subtree before the next sibling, and — given at
least one filter — returns exactly the first node in pre-order,
left-to-right order satisfying the match rule (label filter a
substring of the relation label, text filter equal to the surface
text, each applied only when given), or nothing when no node of the
subtree matches; in particular it is the leftmost pre-order match
among same-label candidates at different depths. -/
theorem find_in_spacynode_preorder_correct (n : STree) (dep orth : String)
    (h : dep ≠ "" ∨ orth ≠ "") :
    find_in_spacynode n dep orth = (preorder n).find? (specMatchB dep orth) := by
  rw [find_eq_preorder_find? dep orth n]
  exact find?_same _ (fun m _ => matchesB_eq_spec dep orth m h)

/-- Witness for C3 on a concrete tree: the label filter "subj" finds
the deep match under the first child before the shallower match under
the second child. -/
theorem find_in_spacynode_preorder_correct_witness :
    find_in_spacynode
      (STree.mk "ROOT" "r"
        [STree.mk "prep" "a" [STree.mk "nsubj" "deep" []],
         STree.mk "csubj" "shallow" []]) "subj" "" =
    (preorder
      (STree.mk "ROOT" "r"
        [STree.mk "prep" "a" [STree.mk "nsubj" "deep" []],
         STree.mk "csubj" "shallow" []])).find? (specMatchB "subj" "") ∧
    find_in_spacynode
      (STree.mk "ROOT" "r"
        [STree.mk "prep" "a" [STree.mk "nsubj" "deep" []],
         STree.mk "csubj" "shallow" []]) "subj" "" =
      some (STree.mk "nsubj" "deep" []) := by
  constructor
  · exact find_in_spacynode_preorder_correct _ "subj" "" (Or.inl (by decide))
  · rfl

/-! ## The mutable object graph as an arena

`TreeNode` (whose class lives outside the shown core; its attribute
set is fixed by the spec's data model and by every read/write the
shown code performs) is embedded as a record, and the object graph as
an arena of such records addressed by stable integer ids.  The head
back-reference is an id; a root points to itself, mirroring the spaCy
convention the code relies on (`token_head.head != token_head`). -/

structure NodeData where
  dep_ : String
  pos_ : String
  orth_ : String
  idx : Nat
  n_lefts : Nat
  n_rights : Nat
  head : Nat
  children : List Nat
  nofollow : Bool
deriving DecidableEq

instance : Inhabited NodeData :=
  ⟨⟨"", "", "", 0, 0, 0, 0, [], false⟩⟩

/-- The object graph: node records addressed by id, plus the list of
ids that denote live objects (used to pick a fresh id for a node the
rules synthesize). -/
structure Arena where
  val : Nat → NodeData
  dom : List Nat

def getNode (t : Arena) (i : Nat) : NodeData :=
  t.val i

/-- In-place mutation of the record at id `i`. -/
def setNode (t : Arena) (i : Nat) (d : NodeData) : Arena :=
  ⟨fun j => if j = i then d else t.val j, t.dom⟩

/-- Allocation of a new record at id `i`. -/
def addNode (t : Arena) (i : Nat) (d : NodeData) : Arena :=
  ⟨fun j => if j = i then d else t.val j, i :: t.dom⟩

def keys (t : Arena) : List Nat :=
  t.dom

def freshId (t : Arena) : Nat :=
  (keys t).foldr max 0 + 1

theorem getNode_setNode_self (t : Arena) (i : Nat) (d : NodeData) :
    getNode (setNode t i d) i = d := by
  simp [getNode, setNode]

theorem getNode_setNode_ne (t : Arena) (i : Nat) (d : NodeData) (j : Nat)
    (h : j ≠ i) : getNode (setNode t i d) j = getNode t j := by
  simp [getNode, setNode, h]

theorem keys_setNode (t : Arena) (i : Nat) (d : NodeData) :
    keys (setNode t i d) = keys t := rfl

theorem getNode_addNode (t : Arena) (i : Nat) (d : NodeData) (j : Nat) :
    getNode (addNode t i d) j = if j = i then d else getNode t j := by
  by_cases hj : j = i <;> simp [getNode, addNode, hj]

theorem keys_addNode (t : Arena) (i : Nat) (d : NodeData) :
    keys (addNode t i d) = i :: keys t := rfl

theorem le_foldr_max (l : List Nat) (k : Nat) (h : k ∈ l) :
    k ≤ l.foldr max 0 := by
  induction l with
  | nil => cases h
  | cons a rest ih =>
    rcases List.mem_cons.mp h with h1 | h1
    · subst h1; exact Nat.le_max_left _ _
    · exact le_trans (ih h1) (Nat.le_max_right _ _)

theorem freshId_not_mem (t : Arena) : freshId t ∉ keys t := by
  intro h
  have := le_foldr_max (keys t) (freshId t) h
  unfold freshId at this
  omega

/-- `setHead t i p` mirrors the Python assignment `node.head = p`. -/
def setHead (t : Arena) (i p : Nat) : Arena :=
  setNode t i { getNode t i with head := p }

/-- `setDep t i s` mirrors the Python assignment `node.dep_ = s`. -/
def setDep (t : Arena) (i : Nat) (s : String) : Arena :=
  setNode t i { getNode t i with dep_ := s }

/-- `setChildren t i cs` mirrors a Python mutation of `node.children`. -/
def setChildren (t : Arena) (i : Nat) (cs : List Nat) : Arena :=
  setNode t i { getNode t i with children := cs }

/-! ## `merge_nodes` (`src/lib/tree_utils.py`)

The source sums `idx`, `n_lefts` and `n_rights` over the members,
then (when no existing parent is supplied) builds a fresh `TreeNode`
with the first member's relation label, empty tag and text, and the
floor average index, and finally appends every member to the parent's
children while redirecting the member's head.  On an empty member
list the source would fault at `nodes[0]` and divide by zero; the
embedding totalises those reads, and every theorem assumes a
non-empty member list as the spec requires. -/

def attachMembers (t : Arena) (pid : Nat) : List Nat → Arena
  | [] => t
  | n :: rest =>
    let t1 := setChildren t pid ((getNode t pid).children ++ [n])
    let t2 := setHead t1 n pid
    attachMembers t2 pid rest

def merge_nodes (t : Arena) (nodes : List Nat) (under : Option Nat) :
    Nat × Arena :=
  let idxS := (nodes.map (fun n => (getNode t n).idx)).sum
  let leftS := (nodes.map (fun n => (getNode t n).n_lefts)).sum
  let rightS := (nodes.map (fun n => (getNode t n).n_rights)).sum
  match under with
  | some pid => (pid, attachMembers t pid nodes)
  | none =>
    let pid := freshId t
    let t1 := addNode t pid
      ⟨(getNode t (nodes.headD 0)).dep_, "", "",
        idxS / nodes.length, leftS, rightS, pid, [], false⟩
    (pid, attachMembers t1 pid nodes)

theorem attachMembers_spec (pid : Nat) :
    ∀ (rest : List Nat) (t : Arena),
    (∀ n ∈ rest, n ≠ pid) →
    (getNode (attachMembers t pid rest) pid).children =
        (getNode t pid).children ++ rest ∧
    (getNode (attachMembers t pid rest) pid).dep_ = (getNode t pid).dep_ ∧
    (getNode (attachMembers t pid rest) pid).idx = (getNode t pid).idx ∧
    (getNode (attachMembers t pid rest) pid).n_lefts = (getNode t pid).n_lefts ∧
    (getNode (attachMembers t pid rest) pid).n_rights = (getNode t pid).n_rights ∧
    (∀ n ∈ rest, (getNode (attachMembers t pid rest) n).head = pid) ∧
    (∀ j, j ≠ pid → j ∉ rest →
      getNode (attachMembers t pid rest) j = getNode t j) ∧
    keys (attachMembers t pid rest) = keys t ∧
    (∀ j, j ≠ pid →
      (getNode (attachMembers t pid rest) j).dep_ = (getNode t j).dep_) ∧
    (∀ j, j ≠ pid →
      (getNode (attachMembers t pid rest) j).children =
        (getNode t j).children) := by
  intro rest
  induction rest with
  | nil => intro t hr; simp [attachMembers]
  | cons n rest ih =>
    intro t hr
    have hnp : n ≠ pid := hr n (by simp)
    rw [attachMembers]
    set t1 := setChildren t pid ((getNode t pid).children ++ [n]) with ht1
    set t2 := setHead t1 n pid with ht2
    have hk2 : keys t2 = keys t := by
      rw [ht2]; unfold setHead; rw [keys_setNode, ht1]; unfold setChildren
      rw [keys_setNode]
    have hr2 : ∀ m ∈ rest, m ≠ pid := fun m hm => hr m (by simp [hm])
    obtain ⟨c1, c2, c3, c4, c5, c6, c7, c8, c9, c10⟩ := ih t2 hr2
    have hgp : getNode t2 pid = { getNode t pid with
        children := (getNode t pid).children ++ [n] } := by
      rw [ht2]
      unfold setHead
      rw [getNode_setNode_ne _ _ _ _ (Ne.symm hnp), ht1]
      unfold setChildren
      exact getNode_setNode_self t pid _
    have hgn : (getNode t2 n).head = pid := by
      rw [ht2]
      unfold setHead
      rw [getNode_setNode_self]
    have h2dep : ∀ j, j ≠ pid → (getNode t2 j).dep_ = (getNode t j).dep_ := by
      intro j hj
      rw [ht2]
      unfold setHead
      by_cases hjn : j = n
      · subst hjn
        rw [getNode_setNode_self, ht1]
        unfold setChildren
        rw [getNode_setNode_ne _ _ _ _ hj]
      · rw [getNode_setNode_ne _ _ _ _ hjn, ht1]
        unfold setChildren
        rw [getNode_setNode_ne _ _ _ _ hj]
    have h2ch : ∀ j, j ≠ pid →
        (getNode t2 j).children = (getNode t j).children := by
      intro j hj
      rw [ht2]
      unfold setHead
      by_cases hjn : j = n
      · subst hjn
        rw [getNode_setNode_self, ht1]
        unfold setChildren
        rw [getNode_setNode_ne _ _ _ _ hj]
      · rw [getNode_setNode_ne _ _ _ _ hjn, ht1]
        unfold setChildren
        rw [getNode_setNode_ne _ _ _ _ hj]
    refine ⟨?_, ?_, ?_, ?_, ?_, ?_, ?_, ?_, ?_, ?_⟩
    · rw [c1, hgp]; simp
    · rw [c2, hgp]
    · rw [c3, hgp]
    · rw [c4, hgp]
    · rw [c5, hgp]
    · intro m hm
      rcases List.mem_cons.mp hm with h1 | h1
      · subst h1
        by_cases hmr : m ∈ rest
        · exact c6 m hmr
        · rw [c7 m hnp hmr, hgn]
      · exact c6 m h1
    · intro j hj1 hj2
      have hjn : j ≠ n := by intro h; exact hj2 (h ▸ by simp)
      rw [c7 j hj1 (fun h => hj2 (by simp [h]))]
      rw [ht2]
      unfold setHead
      rw [getNode_setNode_ne _ _ _ _ hjn, ht1]
      unfold setChildren
      rw [getNode_setNode_ne _ _ _ _ hj1]
    · rw [c8, hk2]
    · intro j hj
      rw [c9 j hj, h2dep j hj]
    · intro j hj
      rw [c10 j hj, h2ch j hj]

/-- C4: with a non-empty member list and no given parent,
`merge_nodes` synthesizes a parent whose lexical index is the floor
of the average of the members' indices, whose left and right counts
are the sums of the members', and whose relation label is the first
member's; all members become the parent's ordered children in input
order, and each member's head is redirected to the parent. -/
theorem merge_nodes_spec (t : Arena) (nodes : List Nat)
    (hne : nodes ≠ [])
    (hmem : ∀ n ∈ nodes, n ∈ keys t) :
    let r := merge_nodes t nodes none
    (getNode r.2 r.1).idx =
        ((nodes.map (fun n => (getNode t n).idx)).sum) / nodes.length ∧
    (getNode r.2 r.1).n_lefts =
        (nodes.map (fun n => (getNode t n).n_lefts)).sum ∧
    (getNode r.2 r.1).n_rights =
        (nodes.map (fun n => (getNode t n).n_rights)).sum ∧
    (getNode r.2 r.1).dep_ = (getNode t (nodes.headD 0)).dep_ ∧
    (getNode r.2 r.1).children = nodes ∧
    (∀ n ∈ nodes, (getNode r.2 n).head = r.1) := by
  intro r
  have hfresh := freshId_not_mem t
  set pid := freshId t with hpid
  set d0 : NodeData :=
    ⟨(getNode t (nodes.headD 0)).dep_, "", "",
      ((nodes.map (fun n => (getNode t n).idx)).sum) / nodes.length,
      (nodes.map (fun n => (getNode t n).n_lefts)).sum,
      (nodes.map (fun n => (getNode t n).n_rights)).sum, pid, [], false⟩ with hd0
  set t1 := addNode t pid d0 with ht1
  have hr : r = (pid, attachMembers t1 pid nodes) := by
    rw [show r = merge_nodes t nodes none from rfl]
    unfold merge_nodes
    rfl
  have hmem1 : ∀ n ∈ nodes, n ≠ pid := by
    intro n hn h
    exact hfresh (h ▸ hmem n hn)
  obtain ⟨c1, c2, c3, c4, c5, c6, _, _, _, _⟩ :=
    attachMembers_spec pid nodes t1 hmem1
  have hg1 : getNode t1 pid = d0 := by
    rw [ht1, getNode_addNode]; simp
  rw [hr]
  refine ⟨?_, ?_, ?_, ?_, ?_, ?_⟩
  · simpa [hg1, hd0] using c3
  · simpa [hg1, hd0] using c4
  · simpa [hg1, hd0] using c5
  · simpa [hg1, hd0] using c2
  · simpa [hg1, hd0] using c1
  · exact c6

/-- The spec's own `mergeNodes` example as a concrete arena:
A(idx=2, nLefts=1, nRights=0) at id 1, B(idx=6, nLefts=0, nRights=1)
at id 2. -/
def mergeExample : Arena :=
  ⟨fun j => if j = 1 then ⟨"nsubj", "NOUN", "A", 2, 1, 0, 1, [], false⟩
    else if j = 2 then ⟨"nsubj", "NOUN", "B", 6, 0, 1, 2, [], false⟩
    else default, [1, 2]⟩

/-- Witness for C4, the spec's own example: merging
A(idx=2, nLefts=1, nRights=0) and B(idx=6, nLefts=0, nRights=1)
yields a parent with idx=4, nLefts=1, nRights=1, children=[A,B],
each member's head the parent. -/
theorem merge_nodes_spec_witness :
    (getNode (merge_nodes mergeExample [1, 2] none).2
      (merge_nodes mergeExample [1, 2] none).1).idx = 4 ∧
    (getNode (merge_nodes mergeExample [1, 2] none).2
      (merge_nodes mergeExample [1, 2] none).1).n_lefts = 1 ∧
    (getNode (merge_nodes mergeExample [1, 2] none).2
      (merge_nodes mergeExample [1, 2] none).1).n_rights = 1 ∧
    (getNode (merge_nodes mergeExample [1, 2] none).2
      (merge_nodes mergeExample [1, 2] none).1).dep_ = "nsubj" ∧
    (getNode (merge_nodes mergeExample [1, 2] none).2
      (merge_nodes mergeExample [1, 2] none).1).children = [1, 2] ∧
    (getNode (merge_nodes mergeExample [1, 2] none).2 1).head =
      (merge_nodes mergeExample [1, 2] none).1 ∧
    (getNode (merge_nodes mergeExample [1, 2] none).2 2).head =
      (merge_nodes mergeExample [1, 2] none).1 := by
  have h := merge_nodes_spec mergeExample [1, 2] (by decide)
    (by intro n hn; fin_cases hn <;> decide)
  obtain ⟨h1, h2, h3, h4, h5, h6⟩ := h
  refine ⟨?_, ?_, ?_, ?_, h5, h6 1 (by simp), h6 2 (by simp)⟩
  · rw [h1]; rfl
  · rw [h2]; rfl
  · rw [h3]; rfl
  · rw [h4]; rfl

/-! ## Growth rule (a): `replace_subj_if_dep_is_relcl_or_ccomp`

The source iterates over a copy of the children list while popping
from the live list by the copy's index, so the live index can drift
after an eviction; an out-of-range live access is a Python
`IndexError`, embedded as `none`.  The source's
`isChangingPossibilities` list is only ever consulted through
`True in isChangingPossibilities`, embedded as the boolean `anyEv`. -/

def subsG : List String := ["nsubj", "csubj", "nsubjpass", "csubjpass"]

def objsG : List String := ["dobj", "iobj", "pobj"]

def openClassTags : List String := ["NOUN", "PROPN", "VERB", "NUM", "PRON", "X"]

def downwardsSubj : String := "nsubj"

/-- The subject-eviction loop of rule (a): `copy` is the snapshot
`token.children[:]`, `i` the running index, and the live list is the
arena's current `children` of `f`. -/
def evictLoop (f : Nat) : List Nat → Nat → Arena → Bool → Bool →
    Option (Arena × Bool × Bool)
  | [], _, t, hasSubj, anyEv => some (t, hasSubj, anyEv)
  | c :: rest, i, t, hasSubj, anyEv =>
    if (getNode t c).dep_ ∈ subsG then
      match ((getNode t f).children)[i]? with
      | none => none
      | some lid =>
        if (getNode t lid).pos_ ∈ openClassTags then
          evictLoop f rest (i + 1) t true anyEv
        else
          evictLoop f rest (i + 1)
            (setChildren t f (((getNode t f).children).eraseIdx i)) true true
    else evictLoop f rest (i + 1) t hasSubj anyEv

/-- The second loop of rule (a): pop every entry of the head's
children whose `idx` equals the focus's `idx`, appending the
downward-subject label to the node set once per pop. -/
def popIdxLoop (h tokIdx : Nat) : List Nat → Nat → Arena → List String →
    Option (Arena × List String)
  | [], _, t, ns => some (t, ns)
  | c :: rest, i, t, ns =>
    if (getNode t c).idx = tokIdx then
      if i < ((getNode t h).children).length then
        popIdxLoop h tokIdx rest (i + 1)
          (setChildren t h (((getNode t h).children).eraseIdx i))
          (ns ++ [downwardsSubj])
      else none
    else popIdxLoop h tokIdx rest (i + 1) t ns

/-- The closing mutations of rule (a), in source order: relabel the
head downward-subject, append it to the focus's children, redirect its
head reference to the focus. -/
def ruleAFinal (t2 : Arena) (h f : Nat) : Arena :=
  setHead (setChildren (setDep t2 h downwardsSubj) f
    (((getNode (setDep t2 h downwardsSubj) f).children) ++ [h])) h f

def ruleATail (t2 : Arena) (h f : Nat) (ns2 : List String) :
    List String × Arena × Bool :=
  (ns2, ruleAFinal t2 h f, true)

def replace_subj_if_dep_is_relcl_or_ccomp (ns : List String) (t : Arena)
    (f : Nat) : Option (List String × Arena × Bool) :=
  if (getNode t f).dep_ ∈ ["relcl", "ccomp"] ∧ (getNode t f).head ≠ f then
    let h := (getNode t f).head
    match evictLoop f ((getNode t f).children) 0 t false false with
    | none => none
    | some (t1, hasSubj, anyEv) =>
      if anyEv || !hasSubj then
        match popIdxLoop h ((getNode t1 f).idx) ((getNode t1 h).children)
            0 t1 ns with
        | none => none
        | some (t2, ns2) => some (ruleATail t2 h f ns2)
      else some (ns, t1, false)
  else some (ns, t, false)

/-- Number of children lists of the arena that the id `i` occurs in,
with multiplicity. -/
def childOcc (t : Arena) (i : Nat) : Nat :=
  ((keys t).map (fun k => ((getNode t k).children).count i)).sum

/-- A three-node chain: a root (id 0) whose child is the focus's head
(id 1), whose child is the focus (id 2) carrying the `relcl` label and
no subject children. -/
def chainArena : Arena :=
  ⟨fun j =>
    if j = 0 then ⟨"ROOT", "VERB", "is", 0, 1, 0, 0, [1], false⟩
    else if j = 1 then ⟨"pcomp", "VERB", "area", 1, 1, 0, 0, [2], false⟩
    else if j = 2 then ⟨"relcl", "VERB", "improves", 2, 0, 0, 1, [], false⟩
    else default, [0, 1, 2]⟩

/-- C2 (failing run): on `chainArena`, rule (a) fires and moves the
focus's head (id 1) under the focus, but never detaches it from its
own parent (id 0): afterwards id 1 occurs in two children lists even
though its head reference points at the focus, so the moved node does
not appear in exactly one parent's children list. -/
theorem ruleA_violates_single_parent_invariant :
    (replace_subj_if_dep_is_relcl_or_ccomp [] chainArena 2).map
      (fun s => (childOcc s.2.1 1, (getNode s.2.1 1).head,
        (getNode s.2.1 0).children, (getNode s.2.1 2).children, s.2.2)) =
    some (2, 2, [1], [1], true) := by decide

/-- A focus (id 9) with label `relcl`, head id 0, and three children:
id 1 a closed-class subject (nsubj/ADP), id 2 an open-class subject
(nsubj/NOUN), id 3 a non-subject (dobj/ADP). -/
def twoSubjArena : Arena :=
  ⟨fun j =>
    if j = 0 then ⟨"ROOT", "VERB", "x", 0, 1, 0, 0, [9], false⟩
    else if j = 9 then ⟨"relcl", "VERB", "improves", 9, 3, 0, 0, [1, 2, 3], false⟩
    else if j = 1 then ⟨"nsubj", "ADP", "of", 1, 0, 0, 9, [], false⟩
    else if j = 2 then ⟨"nsubj", "NOUN", "method", 2, 0, 0, 9, [], false⟩
    else if j = 3 then ⟨"dobj", "ADP", "by", 3, 0, 0, 9, [], false⟩
    else default, [0, 1, 2, 3, 9]⟩

/-- C5 (counterexample): on `twoSubjArena` rule (a) fires although a
valid open-class subject remains.  After the run the focus's children
are [2, 0]: the valid subject id 2 (nsubj/NOUN) is still there, yet
the head (id 0) has been relabeled downward-subject and reparented
under the focus — the claim's "if and only if no valid subject
remains" is violated.  Moreover the eviction scan, reading the live
list at the drifted copy index, evicted id 3, a non-subject child. -/
theorem ruleA_fires_despite_valid_subject :
    (replace_subj_if_dep_is_relcl_or_ccomp [] twoSubjArena 9).map
      (fun s => ((getNode s.2.1 9).children, (getNode s.2.1 2).dep_,
        (getNode s.2.1 2).pos_, (getNode s.2.1 0).dep_, s.1, s.2.2)) =
    some ([2, 0], "nsubj", "NOUN", "nsubj", ["nsubj"], true) := by rfl

/-! ### Pointwise description of the mutation primitives -/

theorem getNode_setChildren (t : Arena) (a : Nat) (l : List Nat) (c : Nat) :
    getNode (setChildren t a l) c =
      if c = a then { getNode t a with children := l } else getNode t c := by
  unfold setChildren
  by_cases hc : c = a
  · subst hc; rw [if_pos rfl, getNode_setNode_self]
  · rw [if_neg hc, getNode_setNode_ne _ _ _ _ hc]

theorem getNode_setDep (t : Arena) (a : Nat) (s : String) (c : Nat) :
    getNode (setDep t a s) c =
      if c = a then { getNode t a with dep_ := s } else getNode t c := by
  unfold setDep
  by_cases hc : c = a
  · subst hc; rw [if_pos rfl, getNode_setNode_self]
  · rw [if_neg hc, getNode_setNode_ne _ _ _ _ hc]

theorem getNode_setHead (t : Arena) (a p : Nat) (c : Nat) :
    getNode (setHead t a p) c =
      if c = a then { getNode t a with head := p } else getNode t c := by
  unfold setHead
  by_cases hc : c = a
  · subst hc; rw [if_pos rfl, getNode_setNode_self]
  · rw [if_neg hc, getNode_setNode_ne _ _ _ _ hc]

theorem dep_setChildren (t : Arena) (a : Nat) (l : List Nat) (c : Nat) :
    (getNode (setChildren t a l) c).dep_ = (getNode t c).dep_ := by
  by_cases hc : c = a <;> simp [getNode_setChildren, hc]

theorem idx_setChildren (t : Arena) (a : Nat) (l : List Nat) (c : Nat) :
    (getNode (setChildren t a l) c).idx = (getNode t c).idx := by
  by_cases hc : c = a <;> simp [getNode_setChildren, hc]

theorem getElem?_middle {α : Type} (pre : List α) (x : α) (post : List α) :
    (pre ++ x :: post)[pre.length]? = some x := by
  induction pre with
  | nil => simp
  | cons a rest ih => simpa using ih

theorem eraseIdx_middle {α : Type} (pre : List α) (x : α) (post : List α) :
    (pre ++ x :: post).eraseIdx pre.length = pre ++ post := by
  induction pre with
  | nil => rfl
  | cons a rest ih => simpa [List.eraseIdx] using ih

/-! ### Segment lemmas for the two loops of rule (a) -/

theorem evictLoop_skip (f : Nat) (seg : List Nat) :
    ∀ (rest : List Nat) (i : Nat) (t : Arena) (hs ae : Bool),
    (∀ c ∈ seg, (getNode t c).dep_ ∉ subsG) →
    evictLoop f (seg ++ rest) i t hs ae =
      evictLoop f rest (i + seg.length) t hs ae := by
  induction seg with
  | nil => intro rest i t hs ae _; simp
  | cons c seg ih =>
    intro rest i t hs ae hnone
    have hc : (getNode t c).dep_ ∉ subsG := hnone c (by simp)
    rw [List.cons_append, evictLoop, if_neg hc,
      ih rest (i + 1) t hs ae (fun d hd => hnone d (by simp [hd]))]
    congr 1
    simp
    omega

theorem evictLoop_done (f : Nat) (seg : List Nat) (i : Nat) (t : Arena)
    (hs ae : Bool) (hnone : ∀ c ∈ seg, (getNode t c).dep_ ∉ subsG) :
    evictLoop f seg i t hs ae = some (t, hs, ae) := by
  have := evictLoop_skip f seg [] i t hs ae hnone
  rw [List.append_nil] at this
  rw [this, evictLoop]

theorem popIdxLoop_skip (h tokIdx : Nat) (seg : List Nat) :
    ∀ (rest : List Nat) (i : Nat) (t : Arena) (ns : List String),
    (∀ c ∈ seg, (getNode t c).idx ≠ tokIdx) →
    popIdxLoop h tokIdx (seg ++ rest) i t ns =
      popIdxLoop h tokIdx rest (i + seg.length) t ns := by
  induction seg with
  | nil => intro rest i t ns _; simp
  | cons c seg ih =>
    intro rest i t ns hnone
    have hc : (getNode t c).idx ≠ tokIdx := hnone c (by simp)
    rw [List.cons_append, popIdxLoop, if_neg hc,
      ih rest (i + 1) t ns (fun d hd => hnone d (by simp [hd]))]
    congr 1
    simp
    omega

theorem popIdxLoop_done (h tokIdx : Nat) (seg : List Nat) (i : Nat)
    (t : Arena) (ns : List String)
    (hnone : ∀ c ∈ seg, (getNode t c).idx ≠ tokIdx) :
    popIdxLoop h tokIdx seg i t ns = some (t, ns) := by
  have := popIdxLoop_skip h tokIdx seg [] i t ns hnone
  rw [List.append_nil] at this
  rw [this, popIdxLoop]

/-- One full run of the second loop of rule (a) when the head's
children contain the focus exactly once (located by index equality, as
the source does): the focus is popped, the downward-subject label is
appended once. -/
theorem popIdxLoop_once (h f : Nat) (t : Arena) (ns : List String)
    (hpre hpost : List Nat)
    (hch : (getNode t h).children = hpre ++ f :: hpost)
    (hpreIdx : ∀ c ∈ hpre, (getNode t c).idx ≠ (getNode t f).idx)
    (hpostIdx : ∀ c ∈ hpost, (getNode t c).idx ≠ (getNode t f).idx) :
    popIdxLoop h ((getNode t f).idx) ((getNode t h).children) 0 t ns =
      some (setChildren t h (hpre ++ hpost), ns ++ [downwardsSubj]) := by
  rw [hch, popIdxLoop_skip h _ hpre _ 0 t ns hpreIdx]
  simp only [Nat.zero_add, popIdxLoop]
  rw [if_pos trivial,
    if_pos (by rw [hch]; simp only [List.length_append, List.length_cons]; omega)]
  rw [hch, eraseIdx_middle]
  exact popIdxLoop_done h _ hpost _ _ _
    (fun c hc => by
      rw [idx_setChildren]
      exact hpostIdx c hc)

theorem evictLoop_noSubj (f : Nat) (t : Arena)
    (hnone : ∀ c ∈ (getNode t f).children, (getNode t c).dep_ ∉ subsG) :
    evictLoop f ((getNode t f).children) 0 t false false =
      some (t, false, false) :=
  evictLoop_done f _ 0 t false false hnone

theorem evictLoop_oneSubj_open (f : Nat) (t : Arena)
    (pre : List Nat) (x : Nat) (post : List Nat)
    (hch : (getNode t f).children = pre ++ x :: post)
    (hx : (getNode t x).dep_ ∈ subsG)
    (hpos : (getNode t x).pos_ ∈ openClassTags)
    (hpre : ∀ c ∈ pre, (getNode t c).dep_ ∉ subsG)
    (hpost : ∀ c ∈ post, (getNode t c).dep_ ∉ subsG) :
    evictLoop f ((getNode t f).children) 0 t false false =
      some (t, true, false) := by
  rw [hch, evictLoop_skip f pre _ 0 t false false hpre]
  simp only [Nat.zero_add, evictLoop]
  rw [if_pos hx, hch]
  simp only [getElem?_middle]
  rw [if_pos hpos]
  exact evictLoop_done f post _ t true false hpost

theorem evictLoop_oneSubj_closed (f : Nat) (t : Arena)
    (pre : List Nat) (x : Nat) (post : List Nat)
    (hch : (getNode t f).children = pre ++ x :: post)
    (hx : (getNode t x).dep_ ∈ subsG)
    (hpos : (getNode t x).pos_ ∉ openClassTags)
    (hpre : ∀ c ∈ pre, (getNode t c).dep_ ∉ subsG)
    (hpost : ∀ c ∈ post, (getNode t c).dep_ ∉ subsG) :
    evictLoop f ((getNode t f).children) 0 t false false =
      some (setChildren t f (pre ++ post), true, true) := by
  rw [hch, evictLoop_skip f pre _ 0 t false false hpre]
  simp only [Nat.zero_add, evictLoop]
  rw [if_pos hx, hch]
  simp only [getElem?_middle]
  rw [if_neg hpos, eraseIdx_middle]
  exact evictLoop_done f post _ _ true true
    (fun c hc => by
      rw [dep_setChildren]
      exact hpost c hc)

theorem ruleAFinal_facts (t2 : Arena) (h f : Nat) (hne : h ≠ f) :
    (getNode (ruleAFinal t2 h f) h).dep_ = downwardsSubj ∧
    (getNode (ruleAFinal t2 h f) h).head = f ∧
    (getNode (ruleAFinal t2 h f) h).children = (getNode t2 h).children ∧
    (getNode (ruleAFinal t2 h f) f).children =
      (getNode t2 f).children ++ [h] := by
  have hnef : f ≠ h := Ne.symm hne
  refine ⟨?_, ?_, ?_, ?_⟩ <;>
    simp [ruleAFinal, getNode_setHead, getNode_setChildren, getNode_setDep,
      hne, hnef]

/-- C5 (amended): rule (a), restricted to a focus with at most one
subject-family child (the shape on which the copy-index never drifts),
whose head's children locate the focus by index exactly once.  Then:
the subject child is evicted iff its part of speech is outside the
open-class list (so proper nouns, being in the list, are never
evicted), and the head is relabeled downward-subject, reparented under
the focus, and the label appended, iff no subject child existed or the
one subject child was evicted. -/
theorem ruleA_singleSubject_spec (ns : List String) (t : Arena) (f : Nat)
    (hdep : (getNode t f).dep_ ∈ ["relcl", "ccomp"])
    (hhead : (getNode t f).head ≠ f)
    (hnotchild : (getNode t f).head ∉ (getNode t f).children)
    (hsplit : (∀ c ∈ (getNode t f).children, (getNode t c).dep_ ∉ subsG) ∨
      (∃ pre x post, (getNode t f).children = pre ++ x :: post ∧
        (getNode t x).dep_ ∈ subsG ∧
        (∀ c ∈ pre, (getNode t c).dep_ ∉ subsG) ∧
        (∀ c ∈ post, (getNode t c).dep_ ∉ subsG)))
    (hpre hpost : List Nat)
    (hch2 : (getNode t (getNode t f).head).children = hpre ++ f :: hpost)
    (hpreIdx : ∀ c ∈ hpre, (getNode t c).idx ≠ (getNode t f).idx)
    (hpostIdx : ∀ c ∈ hpost, (getNode t c).idx ≠ (getNode t f).idx) :
    ∃ ns' t' ap,
      replace_subj_if_dep_is_relcl_or_ccomp ns t f = some (ns', t', ap) ∧
      (ap = true ↔
        ((∀ c ∈ (getNode t f).children, (getNode t c).dep_ ∉ subsG) ∨
         (∃ x ∈ (getNode t f).children, (getNode t x).dep_ ∈ subsG ∧
            (getNode t x).pos_ ∉ openClassTags))) ∧
      (∀ x ∈ (getNode t f).children, (getNode t x).dep_ ∈ subsG →
        (x ∈ (getNode t' f).children ↔ (getNode t x).pos_ ∈ openClassTags)) ∧
      (ap = true →
        (getNode t' ((getNode t f).head)).dep_ = downwardsSubj ∧
        (getNode t' ((getNode t f).head)).head = f ∧
        (getNode t f).head ∈ (getNode t' f).children ∧
        f ∉ (getNode t' ((getNode t f).head)).children ∧
        ns' = ns ++ [downwardsSubj]) ∧
      (ap = false → t' = t ∧ ns' = ns) := by
  have hne : (getNode t f).head ≠ f := hhead
  have hnef : f ≠ (getNode t f).head := Ne.symm hne
  have hfnotmid : f ∉ hpre ++ hpost := by
    intro hmem
    rcases List.mem_append.mp hmem with hm | hm
    · exact hpreIdx f hm rfl
    · exact hpostIdx f hm rfl
  rcases hsplit with hA | ⟨pre, x, post, hch, hx, hpreS, hpostS⟩
  · -- no subject-family child at all: the rule fires
    have hev := evictLoop_noSubj f t hA
    have hpop := popIdxLoop_once ((getNode t f).head) f t ns hpre hpost
      hch2 hpreIdx hpostIdx
    obtain ⟨f3, f4, f5, f6⟩ := ruleAFinal_facts
      (setChildren t ((getNode t f).head) (hpre ++ hpost))
      ((getNode t f).head) f hne
    have hrun : replace_subj_if_dep_is_relcl_or_ccomp ns t f =
        some (ns ++ [downwardsSubj],
          ruleAFinal (setChildren t ((getNode t f).head) (hpre ++ hpost))
            ((getNode t f).head) f, true) := by
      unfold replace_subj_if_dep_is_relcl_or_ccomp
      rw [if_pos ⟨hdep, hhead⟩]
      simp only [hev, hpop, Bool.not_false, Bool.false_or, if_true]
      rfl
    refine ⟨_, _, _, hrun, ?_, ?_, ?_, ?_⟩
    · exact iff_of_true rfl (Or.inl hA)
    · intro y hy hydep
      exact absurd hydep (hA y hy)
    · intro _
      refine ⟨f3, f4, ?_, ?_, rfl⟩
      · rw [f6]; simp
      · rw [f5, getNode_setChildren, if_pos rfl]
        exact hfnotmid
    · intro hfalse
      cases hfalse
  · have hxmem : x ∈ (getNode t f).children := by rw [hch]; simp
    have honly : ∀ y ∈ (getNode t f).children, (getNode t y).dep_ ∈ subsG →
        y = x := by
      intro y hy hydep
      rw [hch] at hy
      rcases List.mem_append.mp hy with hm | hm
      · exact absurd hydep (hpreS y hm)
      · rcases List.mem_cons.mp hm with hm1 | hm1
        · exact hm1
        · exact absurd hydep (hpostS y hm1)
    by_cases hpos : (getNode t x).pos_ ∈ openClassTags
    · -- the one subject child is open-class: nothing happens
      have hev := evictLoop_oneSubj_open f t pre x post hch hx hpos hpreS hpostS
      have hrun : replace_subj_if_dep_is_relcl_or_ccomp ns t f =
          some (ns, t, false) := by
        unfold replace_subj_if_dep_is_relcl_or_ccomp
        rw [if_pos ⟨hdep, hhead⟩]
        simp only [hev, Bool.not_true, Bool.or_false, Bool.false_eq_true,
          if_false]
      refine ⟨_, _, _, hrun, ?_, ?_, ?_, ?_⟩
      · simp only [Bool.false_eq_true, false_iff]
        rintro (hAll | ⟨y, hy, hydep, hypos⟩)
        · exact hAll x hxmem hx
        · exact hypos ((honly y hy hydep) ▸ hpos)
      · intro y hy hydep
        have hyx : y = x := honly y hy hydep
        rw [hyx]
        exact iff_of_true hxmem hpos
      · intro htrue
        cases htrue
      · intro _
        exact ⟨rfl, rfl⟩
    · -- the one subject child is closed-class: evicted, and the rule fires
      have hev := evictLoop_oneSubj_closed f t pre x post hch hx hpos hpreS hpostS
      have hch2T : (getNode (setChildren t f (pre ++ post))
          ((getNode t f).head)).children = hpre ++ f :: hpost := by
        rw [getNode_setChildren, if_neg hne]
        exact hch2
      have hpop := popIdxLoop_once ((getNode t f).head) f
        (setChildren t f (pre ++ post)) ns hpre hpost hch2T
        (fun c hc => by
          rw [idx_setChildren, idx_setChildren]
          exact hpreIdx c hc)
        (fun c hc => by
          rw [idx_setChildren, idx_setChildren]
          exact hpostIdx c hc)
      obtain ⟨f3, f4, f5, f6⟩ := ruleAFinal_facts
        (setChildren (setChildren t f (pre ++ post))
          ((getNode t f).head) (hpre ++ hpost))
        ((getNode t f).head) f hne
      have hchT2f : (getNode (setChildren (setChildren t f (pre ++ post))
          ((getNode t f).head) (hpre ++ hpost)) f).children = pre ++ post := by
        rw [getNode_setChildren, if_neg hnef, getNode_setChildren, if_pos rfl]
      have hrun : replace_subj_if_dep_is_relcl_or_ccomp ns t f =
          some (ns ++ [downwardsSubj],
            ruleAFinal (setChildren (setChildren t f (pre ++ post))
              ((getNode t f).head) (hpre ++ hpost)) ((getNode t f).head) f,
            true) := by
        unfold replace_subj_if_dep_is_relcl_or_ccomp
        rw [if_pos ⟨hdep, hhead⟩]
        simp only [hev, hpop, Bool.not_true, Bool.or_false, Bool.true_or,
          if_true]
        rfl
      refine ⟨_, _, _, hrun, ?_, ?_, ?_, ?_⟩
      · exact iff_of_true rfl (Or.inr ⟨x, hxmem, hx, hpos⟩)
      · intro y hy hydep
        have hyx : y = x := honly y hy hydep
        rw [hyx]
        refine iff_of_false ?_ hpos
        rw [f6, hchT2f]
        intro hmem
        rcases List.mem_append.mp hmem with hm | hm
        · rcases List.mem_append.mp hm with hm1 | hm1
          · exact hpreS x hm1 hx
          · exact hpostS x hm1 hx
        · rcases List.mem_cons.mp hm with hm1 | hm1
          · exact hnotchild (hm1 ▸ hxmem)
          · cases hm1
      · intro _
        refine ⟨f3, f4, ?_, ?_, rfl⟩
        · rw [f6]; simp
        · rw [f5, getNode_setChildren, if_pos rfl]
          exact hfnotmid
      · intro hfalse
        cases hfalse

/-- A two-node arena: root (id 0) whose only child is the focus
(id 5) with label `relcl` and no children. -/
def relclArena : Arena :=
  ⟨fun j =>
    if j = 0 then ⟨"ROOT", "VERB", "helps", 0, 1, 0, 0, [5], false⟩
    else if j = 5 then ⟨"relcl", "VERB", "improves", 5, 0, 0, 0, [], false⟩
    else default, [0, 5]⟩

/-- Witness for the amended C5: on `relclArena` (no subject child at
all) rule (a) fires, relabels the head downward-subject and reparents
it under the focus. -/
theorem ruleA_singleSubject_spec_witness :
    ∃ ns' t' ap,
      replace_subj_if_dep_is_relcl_or_ccomp [] relclArena 5 =
        some (ns', t', ap) ∧
      (ap = true ↔
        ((∀ c ∈ (getNode relclArena 5).children,
            (getNode relclArena c).dep_ ∉ subsG) ∨
         (∃ x ∈ (getNode relclArena 5).children,
            (getNode relclArena x).dep_ ∈ subsG ∧
            (getNode relclArena x).pos_ ∉ openClassTags))) ∧
      (∀ x ∈ (getNode relclArena 5).children,
        (getNode relclArena x).dep_ ∈ subsG →
        (x ∈ (getNode t' 5).children ↔
          (getNode relclArena x).pos_ ∈ openClassTags)) ∧
      (ap = true →
        (getNode t' ((getNode relclArena 5).head)).dep_ = downwardsSubj ∧
        (getNode t' ((getNode relclArena 5).head)).head = 5 ∧
        (getNode relclArena 5).head ∈ (getNode t' 5).children ∧
        5 ∉ (getNode t' ((getNode relclArena 5).head)).children ∧
        ns' = [] ++ [downwardsSubj]) ∧
      (ap = false → t' = relclArena ∧ ns' = []) :=
  ruleA_singleSubject_spec [] relclArena 5 (by decide) (by decide)
    (by decide) (Or.inl (by decide)) [] [] (by decide) (by decide) (by decide)

/-! ## Reduction rule: `merge_multiple_subj_or_dobj`

The source counts the focus children whose label contains the group
marker; below two it skips the group.  Otherwise it repeatedly scans a
copy of the live children list for the first match, collects it and
pops it, until no match remains, then merges the collected nodes and
attaches the synthetic parent as a child of the focus.  `scanPop`
performs one scan-and-pop pass, `sweep` iterates it (one child is
removed per pass, so the initial length bounds the iterations). -/

def scanPop (p : Nat → Bool) : List Nat → Option (Nat × List Nat)
  | [] => none
  | c :: rest =>
    if p c then some (c, rest)
    else
      match scanPop p rest with
      | none => none
      | some (x, rest2) => some (x, c :: rest2)

def sweep (p : Nat → Bool) : Nat → List Nat → List Nat →
    List Nat × List Nat
  | 0, l, acc => (l, acc)
  | fuel + 1, l, acc =>
    match scanPop p l with
    | none => (l, acc)
    | some (x, l2) => sweep p fuel l2 (acc ++ [x])

def mergeGroupStep (group : String) (t : Arena) (f : Nat) : Arena × Bool :=
  let p := fun c => pyIn group (getNode t c).dep_
  if ((getNode t f).children).countP p < 2 then (t, false)
  else
    let r := sweep p ((getNode t f).children).length ((getNode t f).children) []
    let t1 := setChildren t f r.1
    let m := merge_nodes t1 r.2 none
    let t3 := setChildren m.2 f (((getNode m.2 f).children) ++ [m.1])
    let t4 := setHead t3 m.1 f
    (t4, true)

def merge_multiple_subj_or_dobj (ns : List String) (t : Arena) (f : Nat) :
    List String × Arena × Bool :=
  let r1 := mergeGroupStep "subj" t f
  let r2 := mergeGroupStep "obj" r1.1 f
  (ns, r2.1, r1.2 || r2.2)

theorem scanPop_none {p : Nat → Bool} :
    ∀ {l : List Nat}, scanPop p l = none → ∀ c ∈ l, p c = false := by
  intro l
  induction l with
  | nil => intro _ c hc; cases hc
  | cons a rest ih =>
    intro hs c hc
    rw [scanPop] at hs
    by_cases hp : p a
    · rw [if_pos hp] at hs; cases hs
    · rw [if_neg hp] at hs
      rcases List.mem_cons.mp hc with h1 | h1
      · subst h1; exact Bool.not_eq_true _ ▸ (by simpa using hp)
      · cases hrec : scanPop p rest with
        | none => exact ih hrec c h1
        | some v => rw [hrec] at hs; cases hs

theorem scanPop_some {p : Nat → Bool} :
    ∀ {l : List Nat} {x : Nat} {l2 : List Nat},
    scanPop p l = some (x, l2) →
    p x = true ∧ l.filter p = x :: l2.filter p ∧
    l.filter (fun c => !p c) = l2.filter (fun c => !p c) ∧
    l2.length + 1 = l.length ∧ (∀ c ∈ l2, c ∈ l) ∧ x ∈ l := by
  intro l
  induction l with
  | nil => intro x l2 hs; cases hs
  | cons a rest ih =>
    intro x l2 hs
    rw [scanPop] at hs
    by_cases hp : p a
    · rw [if_pos hp] at hs
      injection hs with hs1
      injection hs1 with hx hl2
      subst hx; subst hl2
      refine ⟨hp, ?_, ?_, rfl, fun c hc => by simp [hc], by simp⟩
      · simp [List.filter_cons, hp]
      · simp [List.filter_cons, hp]
    · rw [if_neg hp] at hs
      cases hrec : scanPop p rest with
      | none => rw [hrec] at hs; cases hs
      | some v =>
        obtain ⟨y, rest2⟩ := v
        rw [hrec] at hs
        injection hs with hs1
        injection hs1 with hx hl2
        subst hx
        subst hl2
        obtain ⟨d1, d2, d3, d4, d5, d6⟩ := ih hrec
        refine ⟨d1, ?_, ?_, by simp [← d4], ?_, by simp [d6]⟩
        · simp [List.filter_cons, hp, d2]
        · simp [List.filter_cons, hp, d3]
        · intro c hc
          rcases List.mem_cons.mp hc with h1 | h1
          · simp [h1]
          · simp [d5 c h1]

theorem sweep_spec (p : Nat → Bool) :
    ∀ (fuel : Nat) (l acc : List Nat), l.length ≤ fuel →
    sweep p fuel l acc =
      (l.filter (fun c => !p c), acc ++ l.filter p) := by
  intro fuel
  induction fuel with
  | zero =>
    intro l acc hl
    rw [Nat.le_zero] at hl
    rw [List.length_eq_zero] at hl
    subst hl
    simp [sweep]
  | succ fuel ih =>
    intro l acc hl
    rw [sweep]
    cases hs : scanPop p l with
    | none =>
      have hall := scanPop_none hs
      have h1 : l.filter p = [] := by
        rw [List.filter_eq_nil_iff]
        intro c hc
        simp [hall c hc]
      have h2 : l.filter (fun c => !p c) = l := by
        rw [List.filter_eq_self]
        intro c hc
        simp [hall c hc]
      rw [h1, h2, List.append_nil]
    | some v =>
      obtain ⟨x, l2⟩ := v
      obtain ⟨d1, d2, d3, d4, _, _⟩ := scanPop_some hs
      show sweep p fuel l2 (acc ++ [x]) =
        (l.filter (fun c => !p c), acc ++ l.filter p)
      rw [ih l2 (acc ++ [x]) (by omega), d2, d3]
      simp

theorem countP_filter_split {α : Type} (p q : α → Bool) (l : List α) :
    (l.filter q).countP p + (l.filter fun a => !q a).countP p =
      l.countP p := by
  induction l with
  | nil => simp
  | cons a rest ih =>
    by_cases hq : q a <;> by_cases hp : p a <;>
      simp [List.filter_cons, hq, List.countP_cons, hp, ih] <;> omega

theorem countP_filter_not {α : Type} (p : α → Bool) (l : List α) :
    (l.filter fun a => !p a).countP p = 0 := by
  induction l with
  | nil => simp
  | cons a rest ih =>
    by_cases hp : p a <;> simp [List.filter_cons, hp, List.countP_cons, ih]

theorem dep_setHead (t : Arena) (a p : Nat) (c : Nat) :
    (getNode (setHead t a p) c).dep_ = (getNode t c).dep_ := by
  by_cases hc : c = a <;> simp [getNode_setHead, hc]

theorem children_setHead (t : Arena) (a p : Nat) (c : Nat) :
    (getNode (setHead t a p) c).children = (getNode t c).children := by
  by_cases hc : c = a <;> simp [getNode_setHead, hc]

theorem keys_setChildren (t : Arena) (a : Nat) (l : List Nat) :
    keys (setChildren t a l) = keys t := rfl

theorem keys_setHead (t : Arena) (a p : Nat) :
    keys (setHead t a p) = keys t := rfl

theorem keys_setDep (t : Arena) (a : Nat) (s : String) :
    keys (setDep t a s) = keys t := rfl

/-- Full effect of `merge_nodes` with a synthesized parent, including
what it leaves untouched. -/
theorem merge_nodes_full (t : Arena) (nodes : List Nat)
    (hmem : ∀ n ∈ nodes, n ∈ keys t) :
    (merge_nodes t nodes none).1 = freshId t ∧
    keys (merge_nodes t nodes none).2 = freshId t :: keys t ∧
    (getNode (merge_nodes t nodes none).2 (freshId t)).children = nodes ∧
    (getNode (merge_nodes t nodes none).2 (freshId t)).dep_ =
      (getNode t (nodes.headD 0)).dep_ ∧
    (∀ n ∈ nodes, (getNode (merge_nodes t nodes none).2 n).head = freshId t) ∧
    (∀ j, j ≠ freshId t →
      (getNode (merge_nodes t nodes none).2 j).dep_ = (getNode t j).dep_) ∧
    (∀ j, j ≠ freshId t →
      (getNode (merge_nodes t nodes none).2 j).children =
        (getNode t j).children) := by
  have hfresh := freshId_not_mem t
  set pid := freshId t with hpid
  set d0 : NodeData :=
    ⟨(getNode t (nodes.headD 0)).dep_, "", "",
      ((nodes.map (fun n => (getNode t n).idx)).sum) / nodes.length,
      (nodes.map (fun n => (getNode t n).n_lefts)).sum,
      (nodes.map (fun n => (getNode t n).n_rights)).sum, pid, [], false⟩ with hd0
  set t1 := addNode t pid d0 with ht1
  have hr : merge_nodes t nodes none = (pid, attachMembers t1 pid nodes) := by
    unfold merge_nodes
    rfl
  have hmem1 : ∀ n ∈ nodes, n ≠ pid := by
    intro n hn h
    exact hfresh (h ▸ hmem n hn)
  obtain ⟨c1, c2, c3, c4, c5, c6, _, c8, c9, c10⟩ :=
    attachMembers_spec pid nodes t1 hmem1
  have hg1 : getNode t1 pid = d0 := by
    rw [ht1, getNode_addNode]
    simp
  have hgne : ∀ j, j ≠ pid → getNode t1 j = getNode t j := by
    intro j hj
    rw [ht1, getNode_addNode, if_neg hj]
  rw [hr]
  refine ⟨rfl, ?_, ?_, ?_, c6, ?_, ?_⟩
  · rw [c8, ht1, keys_addNode]
  · rw [c1, hg1]
    simp [hd0]
  · rw [c2, hg1]
  · intro j hj
    rw [c9 j hj, hgne j hj]
  · intro j hj
    rw [c10 j hj, hgne j hj]

/-- The skip branch of the merge rule: below two matching children the
group is left alone. -/
theorem mergeGroupStep_small (g : String) (t : Arena) (f : Nat)
    (hcount : ((getNode t f).children).countP
      (fun c => pyIn g (getNode t c).dep_) < 2) :
    mergeGroupStep g t f = (t, false) := by
  unfold mergeGroupStep
  rw [if_pos hcount]

/-- The merge branch of the merge rule: with two or more matching
children, all of them are removed, merged under a fresh synthetic
node, and that node is attached as a child of the focus with its head
set to the focus. -/
theorem mergeGroupStep_big (g : String) (t : Arena) (f : Nat)
    (hk : ∀ c ∈ (getNode t f).children, c ∈ keys t) (hf : f ∈ keys t)
    (hcount : 2 ≤ ((getNode t f).children).countP
      (fun c => pyIn g (getNode t c).dep_)) :
    (mergeGroupStep g t f).2 = true ∧
    freshId t ∉ keys t ∧
    keys (mergeGroupStep g t f).1 = freshId t :: keys t ∧
    (getNode (mergeGroupStep g t f).1 f).children =
      ((getNode t f).children).filter
        (fun c => !(pyIn g (getNode t c).dep_)) ++ [freshId t] ∧
    (getNode (mergeGroupStep g t f).1 (freshId t)).children =
      ((getNode t f).children).filter (fun c => pyIn g (getNode t c).dep_) ∧
    (getNode (mergeGroupStep g t f).1 (freshId t)).head = f ∧
    (getNode (mergeGroupStep g t f).1 (freshId t)).dep_ =
      (getNode t ((((getNode t f).children).filter
        (fun c => pyIn g (getNode t c).dep_)).headD 0)).dep_ ∧
    (∀ j, j ≠ freshId t →
      (getNode (mergeGroupStep g t f).1 j).dep_ = (getNode t j).dep_) := by
  set p := fun c => pyIn g (getNode t c).dep_ with hp
  set ch := (getNode t f).children with hch
  set rest := ch.filter (fun c => !p c) with hrest
  set grp := ch.filter p with hgrp
  have hfresh := freshId_not_mem t
  have hsw : sweep p ch.length ch [] = (rest, grp) := by
    rw [sweep_spec p ch.length ch [] (Nat.le_refl _)]
    simp [hrest, hgrp]
  set t1 := setChildren t f rest with ht1
  have hk1 : keys t1 = keys t := keys_setChildren _ _ _
  have hfr1 : freshId t1 = freshId t := by
    unfold freshId
    rw [hk1]
  have hmem1 : ∀ n ∈ grp, n ∈ keys t1 := by
    intro n hn
    rw [hk1]
    exact hk n (List.mem_of_mem_filter hn)
  obtain ⟨m1, m2, m3, m4, m5, m6, m7⟩ := merge_nodes_full t1 grp hmem1
  rw [hfr1] at m1 m2 m3 m4 m5 m6 m7
  have hrun : mergeGroupStep g t f =
      (setHead (setChildren (merge_nodes t1 grp none).2 f
        (((getNode (merge_nodes t1 grp none).2 f).children) ++
          [(merge_nodes t1 grp none).1]))
        (merge_nodes t1 grp none).1 f, true) := by
    unfold mergeGroupStep
    rw [if_neg (by rw [← hp, ← hch]; omega)]
    simp only [← hp, ← hch, hsw, ← ht1]
  have hfne : f ≠ freshId t := by
    intro h
    exact hfresh (h ▸ hf)
  have hchm : (getNode (merge_nodes t1 grp none).2 f).children = rest := by
    rw [m7 f hfne, ht1, getNode_setChildren, if_pos rfl]
  refine ⟨by rw [hrun], hfresh, ?_, ?_, ?_, ?_, ?_, ?_⟩
  · rw [hrun]
    show keys (setHead (setChildren _ _ _) _ _) = _
    rw [keys_setHead, keys_setChildren, m2, hk1]
  · rw [hrun]
    show (getNode (setHead (setChildren _ _ _) _ _) f).children = _
    rw [children_setHead, getNode_setChildren, if_pos rfl, hchm, m1]
  · rw [hrun]
    show (getNode (setHead (setChildren _ _ _) _ _) (freshId t)).children = _
    rw [children_setHead, getNode_setChildren, if_neg (Ne.symm hfne)]
    exact m3
  · rw [hrun]
    show (getNode (setHead (setChildren _ _ _) _ _) (freshId t)).head = _
    rw [m1, getNode_setHead, if_pos rfl]
  · rw [hrun]
    show (getNode (setHead (setChildren _ _ _) _ _) (freshId t)).dep_ = _
    rw [dep_setHead, dep_setChildren, m4, ht1, dep_setChildren]
  · intro j hj
    rw [hrun]
    show (getNode (setHead (setChildren _ _ _) _ _) j).dep_ = _
    rw [dep_setHead, dep_setChildren, m6 j hj, ht1, dep_setChildren]

/-! ## The remaining Reduction rules and the canonical tag table

`rewrite_dp_tag` lives in `RuleApplier`, outside the shown sources;
it is modelled from the spec.  The raw label families are exactly the
lists the shown `Growth.__init__` builds. -/

/-- Modelled from the spec: `RuleApplier.rewrite_dp_tag` (the class is
not among the shown sources) maps every subject variant to "subj",
every object variant to "obj", and any other label to itself. -/
def rewrite_dp_tag (tag : String) : String :=
  if tag ∈ subsG then "subj" else if tag ∈ objsG then "obj" else tag

def tags_to_be_removed : List String := ["punct", "mark", " ", "", "meta"]

/-- `Reduction.remove_duplicates`: `set(node_set)`, no tree change,
reports unchanged.  The Python set is represented by `dedup`; every
claim about label collections is stated up to `toFinset`. -/
def remove_duplicates (ns : List String) (t : Arena) (_f : Nat) :
    List String × Arena × Bool :=
  (ns.dedup, t, false)

/-- The flag-marking loop of `Reduction.remove_tags`. -/
def markTags : List Nat → Arena → Bool → Arena × Bool
  | [], t, ap => (t, ap)
  | c :: rest, t, ap =>
    if (getNode t c).dep_ ∈ tags_to_be_removed then
      markTags rest (setNode t c { getNode t c with nofollow := true }) true
    else markTags rest t ap

/-- `Reduction.remove_tags`: drop the suppressed labels from the set
and flag the matching direct children. -/
def remove_tags (ns : List String) (t : Arena) (f : Nat) :
    List String × Arena × Bool :=
  let ns2 := (ns.dedup).filter (fun x => !(decide (x ∈ tags_to_be_removed)))
  let r := markTags ((getNode t f).children) t false
  (ns2, r.1, r.2)

/-- `Reduction.transform_tags`: canonicalize every label, report
unchanged. -/
def transform_tags (ns : List String) (t : Arena) (_f : Nat) :
    List String × Arena × Bool :=
  ((ns.map rewrite_dp_tag).dedup, t, false)

/-- The four Reduction rules in registration order, labels and tree
threaded through. -/
def applyReduction (ns : List String) (t : Arena) (f : Nat) :
    List String × Arena :=
  let r1 := remove_duplicates ns t f
  let r2 := remove_tags r1.1 r1.2.1 f
  let r3 := transform_tags r2.1 r2.2.1 f
  let r4 := merge_multiple_subj_or_dobj r3.1 r3.2.1 f
  (r4.1, r4.2.1)

theorem rewrite_dp_tag_idem (x : String) :
    rewrite_dp_tag (rewrite_dp_tag x) = rewrite_dp_tag x := by
  unfold rewrite_dp_tag
  by_cases h1 : x ∈ subsG
  · rw [if_pos h1]
    decide
  · rw [if_neg h1]
    by_cases h2 : x ∈ objsG
    · rw [if_pos h2]
      decide
    · rw [if_neg h2, if_neg h1, if_neg h2]

theorem rewrite_dp_tag_not_removed (x : String)
    (hx : x ∉ tags_to_be_removed) :
    rewrite_dp_tag x ∉ tags_to_be_removed := by
  unfold rewrite_dp_tag
  by_cases h1 : x ∈ subsG
  · rw [if_pos h1]
    decide
  · rw [if_neg h1]
    by_cases h2 : x ∈ objsG
    · rw [if_pos h2]
      decide
    · rw [if_neg h2]
      exact hx

theorem applyReduction_labels (ns : List String) (t : Arena) (f : Nat) :
    (applyReduction ns t f).1 =
      ((ns.dedup.dedup.filter
        (fun x => !(decide (x ∈ tags_to_be_removed)))).map
          rewrite_dp_tag).dedup := rfl

/-- C6: Reduction is idempotent on the relation-label collection:
running the four Reduction rules twice in sequence yields the same
final label set as running them once (the second run receives the
first run's labels and mutated tree). -/
theorem reduction_idempotent_on_labels (ns : List String) (t : Arena)
    (f : Nat) :
    (applyReduction (applyReduction ns t f).1 (applyReduction ns t f).2
      f).1.toFinset = (applyReduction ns t f).1.toFinset := by
  rw [applyReduction_labels, applyReduction_labels]
  apply Finset.ext
  intro a
  simp only [List.mem_toFinset, List.mem_dedup, List.mem_map,
    List.mem_filter, Bool.not_eq_eq_eq_not, Bool.not_true,
    decide_eq_false_iff_not]
  constructor
  · rintro ⟨y, ⟨⟨x, ⟨hx, hxT⟩, hxy⟩, hyT⟩, hya⟩
    exact ⟨x, ⟨hx, hxT⟩, by rw [← hya, ← hxy, rewrite_dp_tag_idem]⟩
  · rintro ⟨x, ⟨hx, hxT⟩, hxa⟩
    refine ⟨a, ⟨⟨x, ⟨hx, hxT⟩, hxa⟩, ?_⟩, ?_⟩
    · rw [← hxa]
      exact rewrite_dp_tag_not_removed x hxT
    · rw [← hxa, rewrite_dp_tag_idem]

/-- Modelled from the spec: the rule application framework
(`RuleApplier.apply`, not among the shown sources) runs each
registered rule exactly once, in list order, and accumulates the
names of the rules that reported `changed=true` into an ordered
firing log. -/
def applyRules
    (rules : List (String × (List String × Arena → (List String × Arena) × Bool)))
    (s : List String × Arena) : (List String × Arena) × List String :=
  rules.foldl
    (fun acc r =>
      let out := r.2 acc.1
      (out.1, acc.2 ++ if out.2 then [r.1] else []))
    (s, [])

/-- The Reduction rule list, in registration (source) order. -/
def reductionRules (f : Nat) :
    List (String × (List String × Arena → (List String × Arena) × Bool)) :=
  [("remove_duplicates", fun s =>
      let r := remove_duplicates s.1 s.2 f
      ((r.1, r.2.1), r.2.2)),
   ("remove_tags", fun s =>
      let r := remove_tags s.1 s.2 f
      ((r.1, r.2.1), r.2.2)),
   ("transform_tags", fun s =>
      let r := transform_tags s.1 s.2 f
      ((r.1, r.2.1), r.2.2)),
   ("merge_multiple_subj_or_dobj", fun s =>
      let r := merge_multiple_subj_or_dobj s.1 s.2 f
      ((r.1, r.2.1), r.2.2))]

/-- The registered Growth rule names, in source order; the pipeline
log is the Growth log followed by the Reduction log. -/
def growthRuleNames : List String :=
  ["replace_subj_if_dep_is_relcl_or_ccomp",
   "recurse_on_dep_conj_if_no_subj",
   "transform_xcomp_to_dobj_or_sub_if_doesnt_exists",
   "transform_prep_in_to_dobj",
   "bring_grandchild_prep_or_relcl_up_as_child"]

theorem foldl_log_aux (n : String) :
    ∀ (rules : List (String ×
        (List String × Arena → (List String × Arena) × Bool)))
      (st : (List String × Arena) × List String),
    n ∈ (rules.foldl
      (fun acc r =>
        let out := r.2 acc.1
        (out.1, acc.2 ++ if out.2 then [r.1] else [])) st).2 →
    n ∈ st.2 ∨ ∃ r ∈ rules, r.1 = n ∧ ∃ s', (r.2 s').2 = true := by
  intro rules
  induction rules with
  | nil => intro st h; exact Or.inl h
  | cons r rest ih =>
    intro st h
    rw [List.foldl_cons] at h
    rcases ih _ h with h1 | ⟨r2, hr2, hname, hs'⟩
    · rcases List.mem_append.mp h1 with h2 | h2
      · exact Or.inl h2
      · right
        refine ⟨r, by simp, ?_, st.1, ?_⟩ <;> revert h2 <;> split <;>
          intro h2
        · rcases List.mem_singleton.mp h2 with rfl
          rfl
        · cases h2
        · assumption
        · cases h2
    · exact Or.inr ⟨r2, by simp [hr2], hname, hs'⟩

theorem foldl_log_mem (n : String)
    (rules : List (String ×
      (List String × Arena → (List String × Arena) × Bool)))
    (s : List String × Arena) (h : n ∈ (applyRules rules s).2) :
    ∃ r ∈ rules, r.1 = n ∧ ∃ s', (r.2 s').2 = true := by
  rcases foldl_log_aux n rules (s, []) h with h1 | h2
  · cases h1
  · exact h2

/-- C10: `remove_duplicates` and `transform_tags` report
`changed=false` on every input — even though they may alter the label
collection — so their names never appear in the pipeline's firing log
(any Growth log fires only registered Growth rules, and the Reduction
log never contains them). -/
theorem dedup_and_canon_never_fire (f : Nat) (s : List String × Arena)
    (glog : List String) (hg : ∀ n ∈ glog, n ∈ growthRuleNames) :
    "remove_duplicates" ∉ glog ++ (applyRules (reductionRules f) s).2 ∧
    "transform_tags" ∉ glog ++ (applyRules (reductionRules f) s).2 := by
  have hgd : "remove_duplicates" ∉ glog := by
    intro h
    have := hg _ h
    rw [growthRuleNames] at this
    simp at this
  have hgt : "transform_tags" ∉ glog := by
    intro h
    have := hg _ h
    rw [growthRuleNames] at this
    simp at this
  constructor
  · intro h
    rcases List.mem_append.mp h with hm | hm
    · exact hgd hm
    · obtain ⟨r, hr, hname, s', hflag⟩ := foldl_log_mem _ (reductionRules f) s
        hm
      rw [reductionRules] at hr
      simp only [List.mem_cons, List.not_mem_nil, or_false] at hr
      rcases hr with hr | hr | hr | hr <;> subst hr <;>
        simp [remove_duplicates, remove_tags, transform_tags,
          merge_multiple_subj_or_dobj] at hname hflag
  · intro h
    rcases List.mem_append.mp h with hm | hm
    · exact hgt hm
    · obtain ⟨r, hr, hname, s', hflag⟩ := foldl_log_mem _ (reductionRules f) s
        hm
      rw [reductionRules] at hr
      simp only [List.mem_cons, List.not_mem_nil, or_false] at hr
      rcases hr with hr | hr | hr | hr <;> subst hr <;>
        simp [remove_duplicates, remove_tags, transform_tags,
          merge_multiple_subj_or_dobj] at hname hflag

/-- Witness for C10 at a concrete state and empty Growth log. -/
theorem dedup_and_canon_never_fire_witness :
    "remove_duplicates" ∉
      ([] : List String) ++
        (applyRules (reductionRules 0) (["punct"], relclArena)).2 ∧
    "transform_tags" ∉
      ([] : List String) ++
        (applyRules (reductionRules 0) (["punct"], relclArena)).2 :=
  dedup_and_canon_never_fire 0 (["punct"], relclArena) []
    (by intro n hn; cases hn)

/-! ## Growth rule (d): `transform_prep_in_to_dobj`

The object-presence flag is computed by the first loop, before any
relabeling; the second loop then relabels every direct "prep"/"in"
child when the flag is down. -/

/-- The relabeling loop of rule (d); `is_obj` was computed before the
loop and is never refreshed. -/
def prepInLoop (is_obj : Bool) : List Nat → List String → Arena → Bool →
    List String × Arena × Bool
  | [], ns, t, ap => (ns, t, ap)
  | c :: rest, ns, t, ap =>
    if pyIn "prep" (getNode t c).dep_ && ((getNode t c).orth_ == "in") then
      if !is_obj then
        prepInLoop is_obj rest
          (ns.map (fun n => if n == "prep" then "obj" else n))
          (setDep t c "obj") true
      else prepInLoop is_obj rest ns t ap
    else prepInLoop is_obj rest ns t ap

def transform_prep_in_to_dobj (ns : List String) (t : Arena) (f : Nat) :
    List String × Arena × Bool :=
  let is_obj := ((getNode t f).children).any
    (fun c => pyIn "obj" (getNode t c).dep_)
  let r := prepInLoop is_obj ((getNode t f).children) ns t false
  ((r.1.map rewrite_dp_tag).dedup, r.2.1, r.2.2)

theorem prepInLoop_false_spec :
    ∀ (cs : List Nat) (ns : List String) (t : Arena) (ap : Bool),
    (∀ j, (getNode (prepInLoop false cs ns t ap).2.1 j).dep_ =
        (getNode t j).dep_ ∨
      (getNode (prepInLoop false cs ns t ap).2.1 j).dep_ = "obj") ∧
    (∀ j, (getNode (prepInLoop false cs ns t ap).2.1 j).children =
      (getNode t j).children) ∧
    (∀ j, (getNode (prepInLoop false cs ns t ap).2.1 j).orth_ =
      (getNode t j).orth_) ∧
    (∀ c ∈ cs, (pyIn "prep" (getNode t c).dep_ &&
        ((getNode t c).orth_ == "in")) = true →
      (getNode (prepInLoop false cs ns t ap).2.1 c).dep_ = "obj") ∧
    (ap = true → (prepInLoop false cs ns t ap).2.2 = true) ∧
    ((∃ c ∈ cs, (pyIn "prep" (getNode t c).dep_ &&
        ((getNode t c).orth_ == "in")) = true) →
      (prepInLoop false cs ns t ap).2.2 = true) := by
  intro cs
  induction cs with
  | nil =>
    intro ns t ap
    refine ⟨fun j => Or.inl rfl, fun j => rfl, fun j => rfl, ?_, ?_, ?_⟩
    · intro c hc
      cases hc
    · intro h
      exact h ▸ rfl
    · rintro ⟨c, hc, _⟩
      cases hc
  | cons c rest ih =>
    intro ns t ap
    by_cases hpin : (pyIn "prep" (getNode t c).dep_ &&
        ((getNode t c).orth_ == "in")) = true
    · have heq : prepInLoop false (c :: rest) ns t ap =
          prepInLoop false rest
            (ns.map (fun n => if n == "prep" then "obj" else n))
            (setDep t c "obj") true := by
        rw [prepInLoop, if_pos hpin]
        rfl
      obtain ⟨a1, a2, a3, a4, a5, _⟩ := ih
        (ns.map (fun n => if n == "prep" then "obj" else n))
        (setDep t c "obj") true
      have hdep1 : ∀ j, (getNode (setDep t c "obj") j).dep_ =
          (getNode t j).dep_ ∨ (getNode (setDep t c "obj") j).dep_ = "obj" := by
        intro j
        by_cases hj : j = c
        · subst hj
          rw [getNode_setDep, if_pos rfl]
          exact Or.inr rfl
        · rw [getNode_setDep, if_neg hj]
          exact Or.inl rfl
      refine ⟨?_, ?_, ?_, ?_, ?_, ?_⟩
      · intro j
        rw [heq]
        rcases a1 j with h1 | h1
        · rw [h1]
          exact hdep1 j
        · exact Or.inr h1
      · intro j
        rw [heq, a2 j, getNode_setDep]
        by_cases hj : j = c <;> simp [hj]
      · intro j
        rw [heq, a3 j, getNode_setDep]
        by_cases hj : j = c <;> simp [hj]
      · intro d hd _
        rw [heq]
        rcases List.mem_cons.mp hd with h1 | h1
        · subst h1
          rcases a1 d with h2 | h2
          · rw [h2, getNode_setDep, if_pos rfl]
          · exact h2
        · by_cases hdc : d = c
          · subst hdc
            rcases a1 d with h2 | h2
            · rw [h2, getNode_setDep, if_pos rfl]
            · exact h2
          · rename_i hpin2
            apply a4 d h1
            rw [getNode_setDep, if_neg hdc]
            exact hpin2
      · intro _
        rw [heq]
        exact a5 rfl
      · intro _
        rw [heq]
        exact a5 rfl
    · have heq : prepInLoop false (c :: rest) ns t ap =
          prepInLoop false rest ns t ap := by
        rw [prepInLoop, if_neg hpin]
      obtain ⟨a1, a2, a3, a4, a5, a6⟩ := ih ns t ap
      refine ⟨?_, ?_, ?_, ?_, ?_, ?_⟩
      · intro j; rw [heq]; exact a1 j
      · intro j; rw [heq]; exact a2 j
      · intro j; rw [heq]; exact a3 j
      · intro d hd hdpin
        rw [heq]
        rcases List.mem_cons.mp hd with h1 | h1
        · subst h1
          exact absurd hdpin hpin
        · exact a4 d h1 hdpin
      · intro h
        rw [heq]
        exact a5 h
      · rintro ⟨d, hd, hdpin⟩
        rw [heq]
        rcases List.mem_cons.mp hd with h1 | h1
        · subst h1
          exact absurd hdpin hpin
        · exact a6 ⟨d, h1, hdpin⟩

/-- C9: rule (d) computes object-presence once, before any
relabeling; on a focus with no object-family child and two or more
direct "prep"/"in" children, one application relabels all of them to
"obj", leaving the focus with at least two object-family children. -/
theorem transform_prep_in_relabels_all (ns : List String) (t : Arena)
    (f : Nat)
    (hnoobj : ∀ c ∈ (getNode t f).children,
      ¬ pyIn "obj" (getNode t c).dep_ = true)
    (htwo : 2 ≤ ((getNode t f).children).countP
      (fun c => pyIn "prep" (getNode t c).dep_ &&
        ((getNode t c).orth_ == "in"))) :
    (transform_prep_in_to_dobj ns t f).2.2 = true ∧
    (getNode (transform_prep_in_to_dobj ns t f).2.1 f).children =
      (getNode t f).children ∧
    (∀ c ∈ (getNode t f).children,
      (pyIn "prep" (getNode t c).dep_ &&
        ((getNode t c).orth_ == "in")) = true →
      (getNode (transform_prep_in_to_dobj ns t f).2.1 c).dep_ = "obj") ∧
    2 ≤ ((getNode (transform_prep_in_to_dobj ns t f).2.1 f).children).countP
      (fun c => pyIn "obj"
        (getNode (transform_prep_in_to_dobj ns t f).2.1 c).dep_) := by
  have hobj : ((getNode t f).children).any
      (fun c => pyIn "obj" (getNode t c).dep_) = false := by
    rw [List.any_eq_false]
    exact hnoobj
  have heq : transform_prep_in_to_dobj ns t f =
      (((prepInLoop false ((getNode t f).children) ns t false).1.map
          rewrite_dp_tag).dedup,
       (prepInLoop false ((getNode t f).children) ns t false).2.1,
       (prepInLoop false ((getNode t f).children) ns t false).2.2) := by
    unfold transform_prep_in_to_dobj
    rw [hobj]
  obtain ⟨a1, a2, _, a4, _, a6⟩ :=
    prepInLoop_false_spec ((getNode t f).children) ns t false
  have hex : ∃ c ∈ (getNode t f).children,
      (pyIn "prep" (getNode t c).dep_ &&
        ((getNode t c).orth_ == "in")) = true := by
    by_contra hno
    push_neg at hno
    have : ((getNode t f).children).countP
        (fun c => pyIn "prep" (getNode t c).dep_ &&
          ((getNode t c).orth_ == "in")) = 0 := by
      rw [List.countP_eq_zero]
      intro c hc
      simpa using hno c hc
    omega
  refine ⟨?_, ?_, ?_, ?_⟩
  · rw [heq]
    exact a6 hex
  · rw [heq]
    exact a2 f
  · intro c hc hcpin
    rw [heq]
    exact a4 c hc hcpin
  · rw [heq]
    show 2 ≤ ((getNode (prepInLoop false ((getNode t f).children) ns t
        false).2.1 f).children).countP _
    rw [a2 f]
    refine le_trans htwo (List.countP_mono_left ?_)
    intro c hc hcpin
    have := a4 c hc hcpin
    rw [this]
    decide

/-- A focus (id 0) with two direct "prep"/"in" children (ids 1, 2)
and no object-family child. -/
def twoPrepInArena : Arena :=
  ⟨fun j =>
    if j = 0 then ⟨"ROOT", "VERB", "improves", 0, 2, 0, 0, [1, 2], false⟩
    else if j = 1 then ⟨"prep", "ADP", "in", 1, 0, 0, 0, [], false⟩
    else if j = 2 then ⟨"prep", "ADP", "in", 2, 0, 0, 0, [], false⟩
    else default, [0, 1, 2]⟩

/-- Witness for C9 on `twoPrepInArena`: both "prep"/"in" children end
up in the object family after one application. -/
theorem transform_prep_in_relabels_all_witness :
    (transform_prep_in_to_dobj [] twoPrepInArena 0).2.2 = true ∧
    (getNode (transform_prep_in_to_dobj [] twoPrepInArena 0).2.1 0).children =
      (getNode twoPrepInArena 0).children ∧
    (∀ c ∈ (getNode twoPrepInArena 0).children,
      (pyIn "prep" (getNode twoPrepInArena c).dep_ &&
        ((getNode twoPrepInArena c).orth_ == "in")) = true →
      (getNode (transform_prep_in_to_dobj [] twoPrepInArena 0).2.1
        c).dep_ = "obj") ∧
    2 ≤ ((getNode (transform_prep_in_to_dobj [] twoPrepInArena 0).2.1
        0).children).countP
      (fun c => pyIn "obj"
        (getNode (transform_prep_in_to_dobj [] twoPrepInArena 0).2.1
          c).dep_) :=
  transform_prep_in_relabels_all [] twoPrepInArena 0
    (by intro c hc; fin_cases hc <;> decide) (by decide)

/-! ## Growth rule (c): `transform_xcomp_to_dobj_or_sub_if_doesnt_exists`

Four ordered (source, target) pairs; a pair is skipped when a target
child already exists, otherwise the first source child is relabeled;
after the four pairs the label set is canonicalized. -/

def move_if : List (String × String) :=
  [("xcomp", "obj"), ("ccomp", "obj"), ("xcomp", "subj"), ("ccomp", "subj")]

/-- One (source, target) pair of rule (c). -/
def movePair (f : Nat) (s : List String × Arena × Bool) (rt : String × String) :
    List String × Arena × Bool :=
  if ((getNode s.2.1 f).children).any
      (fun c => pyIn rt.2 (getNode s.2.1 c).dep_) then s
  else
    match ((getNode s.2.1 f).children).find?
        (fun c => pyIn rt.1 (getNode s.2.1 c).dep_) with
    | none => s
    | some c =>
      (s.1.map (fun n => if n == rt.1 then rt.2 else n),
        setDep s.2.1 c rt.2, true)

def transform_xcomp_to_dobj_or_sub_if_doesnt_exists (ns : List String)
    (t : Arena) (f : Nat) : List String × Arena × Bool :=
  let r := move_if.foldl (movePair f) (ns, t, false)
  ((r.1.map rewrite_dp_tag).dedup, r.2.1, r.2.2)

theorem find?_eq_head?_filter {α : Type} (p : α → Bool) :
    ∀ l : List α, l.find? p = (l.filter p).head? := by
  intro l
  induction l with
  | nil => rfl
  | cons a rest ih =>
    by_cases hp : p a
    · rw [List.find?_cons_of_pos _ hp, List.filter_cons_of_pos hp]
      rfl
    · rw [List.find?_cons_of_neg _ (by simp [hp]),
        List.filter_cons_of_neg (by simp [hp]), ih]

/-- C8: for each of the four ordered (source, target) pairs, the pair
is skipped (state unchanged) when the focus already has a
target-family child; otherwise, when the focus has exactly one
source-label child, that child is relabeled to the target and the
source label is replaced in the label set; the four pairs are
processed in the source's order, and afterwards the label set is
canonicalized through the tag table. -/
theorem transform_xcomp_pairs_spec (ns : List String) (t : Arena) (f : Nat) :
    (∀ (s : List String × Arena × Bool) (rt : String × String),
      (∃ c ∈ (getNode s.2.1 f).children,
        pyIn rt.2 (getNode s.2.1 c).dep_ = true) →
      movePair f s rt = s) ∧
    (∀ (s : List String × Arena × Bool) (rt : String × String) (c : Nat),
      (∀ d ∈ (getNode s.2.1 f).children,
        ¬ pyIn rt.2 (getNode s.2.1 d).dep_ = true) →
      ((getNode s.2.1 f).children).filter
        (fun d => pyIn rt.1 (getNode s.2.1 d).dep_) = [c] →
      movePair f s rt =
        (s.1.map (fun n => if n == rt.1 then rt.2 else n),
          setDep s.2.1 c rt.2, true)) ∧
    (transform_xcomp_to_dobj_or_sub_if_doesnt_exists ns t f).1.toFinset =
      ((move_if.foldl (movePair f) (ns, t, false)).1.map
        rewrite_dp_tag).toFinset ∧
    (transform_xcomp_to_dobj_or_sub_if_doesnt_exists ns t f).2.1 =
      (move_if.foldl (movePair f) (ns, t, false)).2.1 ∧
    (transform_xcomp_to_dobj_or_sub_if_doesnt_exists ns t f).2.2 =
      (move_if.foldl (movePair f) (ns, t, false)).2.2 := by
  refine ⟨?_, ?_, ?_, rfl, rfl⟩
  · rintro s rt ⟨c, hc, hcdep⟩
    unfold movePair
    rw [if_pos (List.any_eq_true.mpr ⟨c, hc, hcdep⟩)]
  · intro s rt c hno hone
    unfold movePair
    rw [if_neg (by
      rw [List.any_eq_true]
      rintro ⟨d, hd, hddep⟩
      exact hno d hd hddep)]
    rw [find?_eq_head?_filter, hone]
    rfl
  · show (((move_if.foldl (movePair f) (ns, t, false)).1.map
      rewrite_dp_tag).dedup).toFinset = _
    rw [List.toFinset.ext_iff]
    intro x
    exact List.mem_dedup

/-- Focus (id 0) with a single xcomp child (id 1). -/
def xcompArena : Arena :=
  ⟨fun j =>
    if j = 0 then ⟨"ROOT", "VERB", "improves", 0, 1, 0, 0, [1], false⟩
    else if j = 1 then ⟨"xcomp", "VERB", "ranking", 1, 0, 0, 0, [], false⟩
    else default, [0, 1]⟩

/-- Focus (id 0) with a single dobj child (id 1). -/
def dobjArena : Arena :=
  ⟨fun j =>
    if j = 0 then ⟨"ROOT", "VERB", "improves", 0, 1, 0, 0, [1], false⟩
    else if j = 1 then ⟨"dobj", "NOUN", "method", 1, 0, 0, 0, [], false⟩
    else default, [0, 1]⟩

/-- Witness for C8: the (xcomp→obj) pair is skipped when an obj child
exists, and relabels a sole xcomp child otherwise. -/
theorem transform_xcomp_pairs_spec_witness :
    movePair 0 (["dobj"], dobjArena, false) ("xcomp", "obj") =
      (["dobj"], dobjArena, false) ∧
    movePair 0 (["xcomp"], xcompArena, false) ("xcomp", "obj") =
      (["obj"], setDep xcompArena 1 "obj", true) := by
  obtain ⟨h1, h2, _, _, _⟩ := transform_xcomp_pairs_spec [] xcompArena 0
  exact ⟨h1 (["dobj"], dobjArena, false) ("xcomp", "obj")
      ⟨1, by decide, by decide⟩,
    h2 (["xcomp"], xcompArena, false) ("xcomp", "obj") 1
      (by intro d hd; fin_cases hd <;> decide) (by decide)⟩

/-! ## Growth rules (b) and (e): the convergence loops

Both loops are embedded with an explicit fuel parameter: `none` means
the fuel ran out before the loop reached its exit condition, so
"the loop performs only finitely many iterations on this input" is
"some fuel makes the run return `some`".  `findArena` is the arena
counterpart of `find_in_spacynode`, fueled by the arena size plus one
(enough for any acyclic children graph over the arena's ids). -/

def firstSomeN : List (Option Nat) → Option Nat
  | [] => none
  | some x :: _ => some x
  | none :: rest => firstSomeN rest

def findArena (t : Arena) (dep orth : String) : Nat → Nat → Option Nat
  | 0, _ => none
  | fuel + 1, n =>
    if matchesB dep orth (getNode t n).dep_ (getNode t n).orth_ then some n
    else if 0 < ((getNode t n).children).length then
      firstSomeN (((getNode t n).children).map
        (fun c => findArena t dep orth fuel c))
    else none

def headIter (t : Arena) : Nat → Nat → Nat
  | 0, a => a
  | k + 1, a => headIter t k ((getNode t a).head)

/-- The per-child selection scan of rule (b): the first child of the
walked-to ancestor satisfying one of the four conditions, its index,
and whether it is to be relabeled downward-subject. -/
def ruleBFind (t : Arena) (f : Nat) (isBut hasSubj otherConj : Bool) :
    List Nat → Nat → Option (Nat × Nat × Bool)
  | [], _ => none
  | c :: rest, i =>
    if ((!isBut && decide ((getNode t c).dep_ ∈ subsG)) ||
        (isBut && !(decide ((getNode t c).dep_ ∈ subsG)) && otherConj &&
          (((getNode t c).dep_ == "conj") && !(c == f)) &&
          !((findArena t (getNode t f).dep_ (getNode t f).orth_
            ((keys t).length + 1) c).isSome)) ||
        (!isBut && !hasSubj && decide ((getNode t c).dep_ ∈ objsG)) ||
        (isBut && !otherConj && decide ((getNode t c).dep_ ∈ subsG))) then
      some (i, c,
        (!isBut && !hasSubj && decide ((getNode t c).dep_ ∈ objsG)) ||
        (isBut && !(decide ((getNode t c).dep_ ∈ subsG)) && otherConj &&
          (((getNode t c).dep_ == "conj") && !(c == f)) &&
          !((findArena t (getNode t f).dep_ (getNode t f).orth_
            ((keys t).length + 1) c).isSome)))
    else ruleBFind t f isBut hasSubj otherConj rest (i + 1)

/-- The mutations of one successful match of rule (b), in source
order: optional relabel, label append, attach under the focus, head
redirect, pop from the ancestor's children by the scanned index. -/
def ruleBMove (t : Arena) (f th2 i c : Nat) (rlb : Bool)
    (ns : List String) : List String × Arena :=
  ((ns ++ [(getNode (if rlb then setDep t c downwardsSubj else t) c).dep_]),
    setChildren
      (setHead
        (setChildren (if rlb then setDep t c downwardsSubj else t) f
          (((getNode (if rlb then setDep t c downwardsSubj else t)
            f).children) ++ [c]))
        c f)
      th2
      (((getNode (setHead
        (setChildren (if rlb then setDep t c downwardsSubj else t) f
          (((getNode (if rlb then setDep t c downwardsSubj else t)
            f).children) ++ [c]))
        c f) th2).children).eraseIdx i))

/-- Growth rule (b), `recurse_on_dep_conj_if_no_subj`: the
upward-walk-and-re-trigger loop, fueled. -/
def recurse_on_dep_conj_if_no_subj (f : Nat) :
    Nat → Nat → List String → Arena → Bool →
    Option (List String × Arena × Bool)
  | 0, _, _, _, _ => none
  | fuel + 1, th, ns, t, ap =>
    if (getNode t th).dep_ ∈ ["conj"] ∧ (getNode t th).head ≠ th ∧
        ((getNode t f).children).countP
          (fun c => decide ((getNode t c).dep_ ∈ subsG)) = 0 then
      match ruleBFind t f
          (((getNode t ((getNode t th).head)).children).any
            (fun c => pyIn (getNode t c).dep_ "cc" &&
              ((getNode t c).orth_ == "but")))
          (((getNode t ((getNode t th).head)).children).any
            (fun c => pyIn "subj" (getNode t c).dep_))
          (((getNode t ((getNode t th).head)).children).any
            (fun c => pyIn (getNode t c).dep_ "conj" && !(c == f)))
          ((getNode t ((getNode t th).head)).children) 0 with
      | none =>
        recurse_on_dep_conj_if_no_subj f fuel ((getNode t th).head) ns t ap
      | some (i, c, rlb) =>
        recurse_on_dep_conj_if_no_subj f fuel ((getNode t th).head)
          (ruleBMove t f ((getNode t th).head) i c rlb ns).1
          (ruleBMove t f ((getNode t th).head) i c rlb ns).2 true
    else some (ns, t, ap)

/-- The index-matching scan of rule (e): the first position among the
candidate parent's children whose (dep substring, text, index) matches
the found node. -/
def scanMatch (t : Arena) (prep : Nat) : List Nat → Nat → Option Nat
  | [], _ => none
  | c :: rest, i =>
    if pyIn (getNode t prep).dep_ (getNode t c).dep_ &&
        ((getNode t prep).orth_ == (getNode t c).orth_) &&
        ((getNode t prep).idx == (getNode t c).idx) then some i
    else scanMatch t prep rest (i + 1)

/-- The per-(child, pattern) fixpoint loop of Growth rule (e),
`bring_grandchild_prep_or_relcl_up_as_child`: find a matching
descendant beneath `child`, pop it from its head's children by the
matched index, append it under the focus, relabel; repeat until no
match. -/
def ruleELoop (f child : Nat) (dp oth depNew : String) :
    Nat → List String → Arena → Bool →
    Option (List String × Arena × Bool)
  | 0, _, _, _ => none
  | fuel + 1, ns, t, ap =>
    match findArena t dp oth ((keys t).length + 1) child with
    | none => some (ns, t, ap)
    | some prep =>
      match scanMatch t prep
          ((getNode t ((getNode t prep).head)).children) 0 with
      | none => some (ns, t, ap)
      | some i =>
        ruleELoop f child dp oth depNew fuel (ns ++ [depNew])
          (setDep
            (setHead
              (setChildren
                (setChildren t ((getNode t prep).head)
                  (((getNode t ((getNode t prep).head)).children).eraseIdx i))
                f
                (((getNode (setChildren t ((getNode t prep).head)
                  (((getNode t ((getNode t prep).head)).children).eraseIdx i))
                  f).children) ++ [prep]))
              prep f)
            prep depNew)
          true

theorem chStart_self : ∀ l : List Char, chStart l l = true := by
  intro l
  induction l with
  | nil => rfl
  | cons a rest ih => simp [chStart, ih]

theorem pyIn_self (s : String) : pyIn s s = true := by
  unfold pyIn chSub
  cases h : s.data with
  | nil => rfl
  | cons a rest =>
    rw [← h]
    cases h2 : s.data with
    | nil => rw [h] at h2; cases h2
    | cons b bs =>
      simp only [chSub]
      rw [← h2, chStart_self]
      rfl

/-- A focus (id 0) whose only child (id 1) carries a label containing
both the family marker "obj" (so rule (e)'s outer guard selects it)
and the pattern label "prep", with text "by" (so the ("prep", "by")
hoist pattern matches the child itself). -/
def loopArena : Arena :=
  ⟨fun j =>
    if j = 0 then ⟨"ROOT", "VERB", "employs", 0, 1, 0, 0, [1], false⟩
    else if j = 1 then ⟨"objprep", "ADP", "by", 1, 0, 0, 0, [], false⟩
    else default, [0, 1]⟩

theorem ruleELoop_diverges_aux :
    ∀ (fuel : Nat) (ns : List String) (t : Arena) (ap : Bool),
    keys t = [0, 1] →
    (getNode t 0).children = [1] →
    (getNode t 1).head = 0 →
    (getNode t 1).children = [] →
    (getNode t 1).orth_ = "by" →
    pyIn "prep" (getNode t 1).dep_ = true →
    ruleELoop 0 1 "prep" "by" "prep" fuel ns t ap = none := by
  intro fuel
  induction fuel with
  | zero => intros; rfl
  | succ fuel ih =>
    intro ns t ap hks hch hhd hch1 horth hdep
    have hmatch : matchesB "prep" "by" (getNode t 1).dep_
        (getNode t 1).orth_ = true := by
      unfold matchesB
      rw [horth, hdep]
      decide
    have hfind : findArena t "prep" "by" ((keys t).length + 1) 1 = some 1 := by
      rw [hks]
      show findArena t "prep" "by" (2 + 1) 1 = some 1
      rw [findArena, if_pos hmatch]
    have hscan : scanMatch t 1
        ((getNode t ((getNode t 1).head)).children) 0 = some 0 := by
      rw [hhd, hch, scanMatch,
        if_pos (by rw [pyIn_self]; simp)]
    rw [ruleELoop]
    simp only [hfind, hscan]
    apply ih <;>
      simp [getNode_setDep, getNode_setHead, getNode_setChildren,
        keys_setDep, keys_setHead, keys_setChildren, hks, hch, hhd, hch1,
        horth, pyIn_self]

/-- C7 (counterexample): on `loopArena`, the per-pattern fixpoint loop
of Growth rule (e) — applied to the focus's "obj"-family child for
the ("prep", "by") pattern — re-consumes the very configuration it
just produced on every pass: no amount of fuel makes it reach its
exit condition, so the loop does not perform finitely many iterations
on every input tree. -/
theorem ruleELoop_no_finite_run :
    ¬ ∃ (fuel : Nat) (r : List String × Arena × Bool),
      ruleELoop 0 1 "prep" "by" "prep" fuel [] loopArena false = some r := by
  rintro ⟨fuel, r, hr⟩
  rw [ruleELoop_diverges_aux fuel [] loopArena false rfl (by decide)
    (by decide) (by decide) (by decide) (by decide)] at hr
  cases hr

theorem children_setDep (t : Arena) (a : Nat) (s : String) (c : Nat) :
    (getNode (setDep t a s) c).children = (getNode t c).children := by
  by_cases hc : c = a <;> simp [getNode_setDep, hc]

theorem eraseIdx_append_left {α : Type} :
    ∀ (l1 l2 : List α) (i : Nat), i < l1.length →
    (l1 ++ l2).eraseIdx i = l1.eraseIdx i ++ l2 := by
  intro l1
  induction l1 with
  | nil => intro l2 i h; cases h
  | cons a rest ih =>
    intro l2 i h
    cases i with
    | zero => simp [List.eraseIdx]
    | succ i =>
      simp only [List.cons_append, List.eraseIdx, List.cons.injEq, true_and]
      exact ih l2 i (by simpa using h)

theorem ruleBMove_children_f (t : Arena) (f th2 i c : Nat) (rlb : Bool)
    (ns : List String) (hlt : i < ((getNode t th2).children).length) :
    (getNode (ruleBMove t f th2 i c rlb ns).2 f).children =
      if f = th2 then ((getNode t f).children).eraseIdx i ++ [c]
      else (getNode t f).children ++ [c] := by
  have hT1 : (getNode (if rlb then setDep t c downwardsSubj else t)
      f).children = (getNode t f).children := by
    split
    · rw [children_setDep]
    · rfl
  unfold ruleBMove
  by_cases hth : f = th2
  · subst hth
    rw [if_pos rfl, getNode_setChildren, if_pos rfl]
    dsimp only
    rw [children_setHead, getNode_setChildren, if_pos rfl, hT1,
      eraseIdx_append_left _ _ i hlt]
  · rw [if_neg hth, getNode_setChildren, if_neg hth, children_setHead,
      getNode_setChildren, if_pos rfl, hT1]

theorem ruleBMove_dep (t : Arena) (f th2 i c : Nat) (rlb : Bool)
    (ns : List String) :
    (getNode (ruleBMove t f th2 i c rlb ns).2 c).dep_ =
      (getNode (if rlb then setDep t c downwardsSubj else t) c).dep_ := by
  unfold ruleBMove
  rw [dep_setChildren, dep_setHead, dep_setChildren]

theorem ruleBFind_spec (t : Arena) (f : Nat) (isBut hasSubj otherConj : Bool) :
    ∀ (cs : List Nat) (i : Nat) (res : Nat × Nat × Bool),
    ruleBFind t f isBut hasSubj otherConj cs i = some res →
    res.1 < i + cs.length ∧ i ≤ res.1 ∧
    (res.2.2 = false → (getNode t res.2.1).dep_ ∈ subsG) := by
  intro cs
  induction cs with
  | nil => intro i res h; cases h
  | cons c rest ih =>
    intro i res h
    rw [ruleBFind] at h
    split at h
    · rename_i hcond
      injection h with h1
      subst h1
      refine ⟨by simp, Nat.le_refl _, ?_⟩
      intro hrel
      simp only at hrel
      rw [Bool.or_eq_false_iff] at hrel
      obtain ⟨hd1, hd2⟩ := hrel
      rw [hd2, hd1] at hcond
      simp only [Bool.or_false, Bool.false_or, Bool.or_eq_true,
        Bool.and_eq_true, decide_eq_true_eq] at hcond
      rcases hcond with ⟨_, h2⟩ | ⟨⟨_, _⟩, h2⟩ <;> exact h2
    · obtain ⟨d1, d2, d3⟩ := ih (i + 1) res h
      exact ⟨by simpa [Nat.add_assoc, Nat.add_comm 1 rest.length] using d1,
        by omega, d3⟩

/-- C7 (amended, the rule (b) part): the upward-walk-and-re-trigger
loop of Growth rule (b) terminates on every tree whose head chain from
the focus reaches a self-headed root: if the chain reaches a fixpoint
within `n` steps, the loop's result is stable for every fuel of at
least `n + 2` — i.e. the loop performs at most `n + 2` iterations
(each pass either breaks, ascends the head chain, or moves one child
under the focus, and a moved child's label always lands in the
subject family, so the very next pass breaks on the no-subject
trigger). -/
theorem recurse_on_dep_conj_terminates (f : Nat) (t : Arena) (n : Nat) :
    ∀ (th : Nat) (ns : List String) (ap : Bool),
    (getNode t (headIter t n th)).head = headIter t n th →
    ∃ r, ∀ fuel, n + 2 ≤ fuel →
      recurse_on_dep_conj_if_no_subj f fuel th ns t ap = some r := by
  induction n with
  | zero =>
    intro th ns ap hfix
    refine ⟨(ns, t, ap), ?_⟩
    intro fuel hfuel
    obtain ⟨m, rfl⟩ : ∃ m, fuel = m + 1 := ⟨fuel - 1, by omega⟩
    rw [recurse_on_dep_conj_if_no_subj, if_neg]
    rintro ⟨_, hne, _⟩
    exact hne hfix
  | succ n ih =>
    intro th ns ap hfix
    have hfix2 : (getNode t (headIter t n ((getNode t th).head))).head =
        headIter t n ((getNode t th).head) := hfix
    by_cases hcond : (getNode t th).dep_ ∈ ["conj"] ∧
        (getNode t th).head ≠ th ∧
        ((getNode t f).children).countP
          (fun c => decide ((getNode t c).dep_ ∈ subsG)) = 0
    · cases hfind : ruleBFind t f
          (((getNode t ((getNode t th).head)).children).any
            (fun c => pyIn (getNode t c).dep_ "cc" &&
              ((getNode t c).orth_ == "but")))
          (((getNode t ((getNode t th).head)).children).any
            (fun c => pyIn "subj" (getNode t c).dep_))
          (((getNode t ((getNode t th).head)).children).any
            (fun c => pyIn (getNode t c).dep_ "conj" && !(c == f)))
          ((getNode t ((getNode t th).head)).children) 0 with
      | none =>
        obtain ⟨r, hr⟩ := ih ((getNode t th).head) ns ap hfix2
        refine ⟨r, ?_⟩
        intro fuel hfuel
        obtain ⟨m, rfl⟩ : ∃ m, fuel = m + 1 := ⟨fuel - 1, by omega⟩
        rw [recurse_on_dep_conj_if_no_subj, if_pos hcond]
        simp only [hfind]
        exact hr m (by omega)
      | some res =>
        obtain ⟨i, c, rlb⟩ := res
        obtain ⟨hlt, _, hsubs⟩ := ruleBFind_spec t f _ _ _ _ 0 _ hfind
        rw [Nat.zero_add] at hlt
        refine ⟨((ruleBMove t f ((getNode t th).head) i c rlb ns).1,
          (ruleBMove t f ((getNode t th).head) i c rlb ns).2, true), ?_⟩
        intro fuel hfuel
        obtain ⟨m, rfl⟩ : ∃ m, fuel = m + 1 := ⟨fuel - 1, by omega⟩
        rw [recurse_on_dep_conj_if_no_subj, if_pos hcond]
        simp only [hfind]
        obtain ⟨m2, rfl⟩ : ∃ m2, m = m2 + 1 := ⟨m - 1, by omega⟩
        rw [recurse_on_dep_conj_if_no_subj, if_neg]
        rintro ⟨_, _, hcount⟩
        rw [List.countP_eq_zero] at hcount
        have hcmem : c ∈ (getNode
            (ruleBMove t f ((getNode t th).head) i c rlb ns).2
            f).children := by
          rw [ruleBMove_children_f t f ((getNode t th).head) i c rlb ns hlt]
          split <;> simp
        have hcdep : (getNode
            (ruleBMove t f ((getNode t th).head) i c rlb ns).2
            c).dep_ ∈ subsG := by
          rw [ruleBMove_dep]
          cases rlb with
          | true =>
            rw [if_pos rfl, getNode_setDep, if_pos rfl]
            show downwardsSubj ∈ subsG
            decide
          | false =>
            rw [if_neg (by simp)]
            exact hsubs rfl
        have := hcount c hcmem
        rw [decide_eq_true hcdep] at this
        exact this rfl
    · refine ⟨(ns, t, ap), ?_⟩
      intro fuel hfuel
      obtain ⟨m, rfl⟩ : ∃ m, fuel = m + 1 := ⟨fuel - 1, by omega⟩
      rw [recurse_on_dep_conj_if_no_subj, if_neg hcond]

/-- Witness for the amended C7: on `relclArena` (head chain of length
one from the focus), fuel 3 completes rule (b)'s loop. -/
theorem recurse_on_dep_conj_terminates_witness :
    ∃ r, recurse_on_dep_conj_if_no_subj 5 3 5 [] relclArena false = some r := by
  obtain ⟨r, hr⟩ := recurse_on_dep_conj_terminates 5 relclArena 1 5 []
    false (by decide)
  exact ⟨r, hr 3 (by omega)⟩

theorem countP_mem_congr {α : Type} {p q : α → Bool} :
    ∀ {l : List α}, (∀ a ∈ l, p a = q a) → l.countP p = l.countP q := by
  intro l
  induction l with
  | nil => intro _; rfl
  | cons a rest ih =>
    intro h
    rw [List.countP_cons, List.countP_cons, h a (by simp),
      ih (fun b hb => h b (by simp [hb]))]

theorem headD_mem {l : List Nat} (h : l ≠ []) : l.headD 0 ∈ l := by
  cases l with
  | nil => exact absurd rfl h
  | cons a rest => simp

theorem mergeGroupStep_keys (g : String) (t : Arena) (f : Nat)
    (hk : ∀ c ∈ (getNode t f).children, c ∈ keys t) (hf : f ∈ keys t) :
    (∀ c ∈ (getNode (mergeGroupStep g t f).1 f).children,
      c ∈ keys (mergeGroupStep g t f).1) ∧
    f ∈ keys (mergeGroupStep g t f).1 := by
  by_cases hcount : 2 ≤ ((getNode t f).children).countP
      (fun c => pyIn g (getNode t c).dep_)
  · obtain ⟨_, _, b3, b4, _, _, _, _⟩ := mergeGroupStep_big g t f hk hf hcount
    constructor
    · intro c hc
      rw [b4] at hc
      rw [b3]
      rcases List.mem_append.mp hc with hm | hm
      · exact List.mem_cons_of_mem _ (hk c (List.mem_of_mem_filter hm))
      · rcases List.mem_cons.mp hm with hm1 | hm1
        · exact hm1 ▸ List.mem_cons_self _ _
        · cases hm1
    · rw [b3]
      exact List.mem_cons_of_mem _ hf
  · rw [mergeGroupStep_small g t f (by omega)]
    exact ⟨hk, hf⟩

theorem mergeGroupStep_own_le_one (g : String) (t : Arena) (f : Nat)
    (hk : ∀ c ∈ (getNode t f).children, c ∈ keys t) (hf : f ∈ keys t) :
    ((getNode (mergeGroupStep g t f).1 f).children).countP
      (fun c => pyIn g (getNode (mergeGroupStep g t f).1 c).dep_) ≤ 1 := by
  by_cases hcount : 2 ≤ ((getNode t f).children).countP
      (fun c => pyIn g (getNode t c).dep_)
  · obtain ⟨_, b2, _, b4, _, _, _, b8⟩ := mergeGroupStep_big g t f hk hf hcount
    rw [b4, List.countP_append]
    have h0 : (((getNode t f).children).filter
        (fun c => !(pyIn g (getNode t c).dep_))).countP
        (fun c => pyIn g (getNode (mergeGroupStep g t f).1 c).dep_) = 0 := by
      rw [List.countP_eq_zero]
      intro c hc
      have hcch := List.mem_of_mem_filter hc
      have hne : c ≠ freshId t := by
        intro h
        exact b2 (h ▸ hk c hcch)
      rw [b8 c hne]
      have := (List.mem_filter.mp hc).2
      simpa using this
    rw [h0]
    have : (([freshId t] : List Nat)).countP
        (fun c => pyIn g (getNode (mergeGroupStep g t f).1 c).dep_) ≤ 1 := by
      simp only [List.countP_cons, List.countP_nil]
      split <;> omega
    omega
  · rw [mergeGroupStep_small g t f (by omega)]
    show ((getNode t f).children).countP
      (fun c => pyIn g (getNode t c).dep_) ≤ 1
    omega

theorem mergeGroupStep_preserve_le_one (g s : String) (t : Arena) (f : Nat)
    (hk : ∀ c ∈ (getNode t f).children, c ∈ keys t) (hf : f ∈ keys t)
    (hle : ((getNode t f).children).countP
      (fun c => pyIn s (getNode t c).dep_) ≤ 1) :
    ((getNode (mergeGroupStep g t f).1 f).children).countP
      (fun c => pyIn s (getNode (mergeGroupStep g t f).1 c).dep_) ≤ 1 := by
  by_cases hcount : 2 ≤ ((getNode t f).children).countP
      (fun c => pyIn g (getNode t c).dep_)
  · obtain ⟨_, b2, _, b4, _, _, b7, b8⟩ := mergeGroupStep_big g t f hk hf hcount
    rw [b4, List.countP_append]
    have hstab : ∀ c ∈ (getNode t f).children,
        (pyIn s (getNode (mergeGroupStep g t f).1 c).dep_) =
          (pyIn s (getNode t c).dep_) := by
      intro c hc
      have hne : c ≠ freshId t := by
        intro h
        exact b2 (h ▸ hk c hc)
      rw [b8 c hne]
    have hsplit := countP_filter_split
      (fun c => pyIn s (getNode t c).dep_)
      (fun c => pyIn g (getNode t c).dep_) ((getNode t f).children)
    have hrest : (((getNode t f).children).filter
        (fun c => !(pyIn g (getNode t c).dep_))).countP
        (fun c => pyIn s (getNode (mergeGroupStep g t f).1 c).dep_) =
        (((getNode t f).children).filter
        (fun c => !(pyIn g (getNode t c).dep_))).countP
        (fun c => pyIn s (getNode t c).dep_) :=
      countP_mem_congr (fun c hc => hstab c (List.mem_of_mem_filter hc))
    rw [hrest]
    have hgrpne : ((getNode t f).children).filter
        (fun c => pyIn g (getNode t c).dep_) ≠ [] := by
      intro h
      rw [List.countP_eq_length_filter, h] at hcount
      simp at hcount
    have hymem := headD_mem hgrpne
    have hych := List.mem_of_mem_filter hymem
    have hyq := (List.mem_filter.mp hymem).2
    by_cases hy : pyIn s (getNode t ((((getNode t f).children).filter
        (fun c => pyIn g (getNode t c).dep_)).headD 0)).dep_
    · have hone : 1 ≤ (((getNode t f).children).filter
          (fun c => pyIn g (getNode t c).dep_)).countP
          (fun c => pyIn s (getNode t c).dep_) := by
        rw [Nat.succ_le, List.countP_pos_iff]
        exact ⟨_, hymem, hy⟩
      have hz : (((getNode t f).children).filter
          (fun c => !(pyIn g (getNode t c).dep_))).countP
          (fun c => pyIn s (getNode t c).dep_) = 0 := by omega
      rw [hz]
      have : (([freshId t] : List Nat)).countP
          (fun c => pyIn s (getNode (mergeGroupStep g t f).1 c).dep_) ≤ 1 := by
        simp only [List.countP_cons, List.countP_nil]
        split <;> omega
      omega
    · have hz : (([freshId t] : List Nat)).countP
          (fun c => pyIn s (getNode (mergeGroupStep g t f).1 c).dep_) = 0 := by
        rw [List.countP_eq_zero]
        intro c hc
        rw [List.mem_singleton] at hc
        subst hc
        rw [b7]
        exact hy
      rw [hz]
      omega
  · rw [mergeGroupStep_small g t f (by omega)]
    show ((getNode t f).children).countP
      (fun c => pyIn s (getNode t c).dep_) ≤ 1
    exact hle

/-- C1: after the Reduction multi-subject/object merge rule, the focus
has at most one direct child whose relation label contains "subj" and
at most one whose label contains "obj"; and for each family with two
or more direct children at the time the family is processed, all of
them are removed and replaced by one synthetic merged child whose
children are exactly the removed nodes, attached to the focus with its
head set to the focus. -/
theorem merge_multiple_subj_or_dobj_spec (ns : List String) (t : Arena)
    (f : Nat)
    (hk : ∀ c ∈ (getNode t f).children, c ∈ keys t) (hf : f ∈ keys t) :
    ((getNode (merge_multiple_subj_or_dobj ns t f).2.1 f).children).countP
      (fun c => pyIn "subj"
        (getNode (merge_multiple_subj_or_dobj ns t f).2.1 c).dep_) ≤ 1 ∧
    ((getNode (merge_multiple_subj_or_dobj ns t f).2.1 f).children).countP
      (fun c => pyIn "obj"
        (getNode (merge_multiple_subj_or_dobj ns t f).2.1 c).dep_) ≤ 1 ∧
    (merge_multiple_subj_or_dobj ns t f).1 = ns ∧
    (∀ g, 2 ≤ ((getNode t f).children).countP
        (fun c => pyIn g (getNode t c).dep_) →
      (mergeGroupStep g t f).2 = true ∧
      (getNode (mergeGroupStep g t f).1 f).children =
        ((getNode t f).children).filter
          (fun c => !(pyIn g (getNode t c).dep_)) ++ [freshId t] ∧
      (getNode (mergeGroupStep g t f).1 (freshId t)).children =
        ((getNode t f).children).filter (fun c => pyIn g (getNode t c).dep_) ∧
      (getNode (mergeGroupStep g t f).1 (freshId t)).head = f) := by
  have e : (merge_multiple_subj_or_dobj ns t f).2.1 =
      (mergeGroupStep "obj" (mergeGroupStep "subj" t f).1 f).1 := rfl
  obtain ⟨hk1, hf1⟩ := mergeGroupStep_keys "subj" t f hk hf
  refine ⟨?_, ?_, rfl, ?_⟩
  · rw [e]
    exact mergeGroupStep_preserve_le_one "obj" "subj"
      (mergeGroupStep "subj" t f).1 f hk1 hf1
      (mergeGroupStep_own_le_one "subj" t f hk hf)
  · rw [e]
    exact mergeGroupStep_own_le_one "obj" (mergeGroupStep "subj" t f).1 f
      hk1 hf1
  · intro g hcount
    obtain ⟨b1, _, _, b4, b5, b6, _, _⟩ := mergeGroupStep_big g t f hk hf hcount
    exact ⟨b1, b4, b5, b6⟩

/-- The spec's merge scenario as an arena: a focus (id 10) with two
subject-family children "method" (id 1) and "ORCLUS" (id 2) and an
object child (id 3). -/
def twoSubjMergeArena : Arena :=
  ⟨fun j =>
    if j = 10 then ⟨"ROOT", "VERB", "improves", 10, 3, 0, 10, [1, 2, 3], false⟩
    else if j = 1 then ⟨"nsubj", "NOUN", "method", 1, 0, 0, 10, [], false⟩
    else if j = 2 then ⟨"nsubj", "PROPN", "ORCLUS", 2, 0, 0, 10, [], false⟩
    else if j = 3 then ⟨"dobj", "NOUN", "PROCLUS", 3, 0, 0, 10, [], false⟩
    else default, [10, 1, 2, 3]⟩

/-- Witness for C1: on the spec's two-subject scenario the merge rule
leaves at most one subject child and one object child, and the subject
family (count 2) is merged into a single fresh child. -/
theorem merge_multiple_subj_or_dobj_spec_witness :
    ((getNode (merge_multiple_subj_or_dobj [] twoSubjMergeArena 10).2.1
        10).children).countP
      (fun c => pyIn "subj"
        (getNode (merge_multiple_subj_or_dobj [] twoSubjMergeArena 10).2.1
          c).dep_) ≤ 1 ∧
    ((getNode (merge_multiple_subj_or_dobj [] twoSubjMergeArena 10).2.1
        10).children).countP
      (fun c => pyIn "obj"
        (getNode (merge_multiple_subj_or_dobj [] twoSubjMergeArena 10).2.1
          c).dep_) ≤ 1 ∧
    (mergeGroupStep "subj" twoSubjMergeArena 10).2 = true ∧
    (getNode (mergeGroupStep "subj" twoSubjMergeArena 10).1
      (freshId twoSubjMergeArena)).children = [1, 2] := by
  obtain ⟨h1, h2, _, h4⟩ := merge_multiple_subj_or_dobj_spec []
    twoSubjMergeArena 10
    (by intro c hc; fin_cases hc <;> decide) (by decide)
  obtain ⟨g1, _, g3, _⟩ := h4 "subj" (by decide)
  refine ⟨h1, h2, g1, ?_⟩
  rw [g3]
  decide

end Tetre
